import Mathlib

set_option maxRecDepth 8000

/-!
Verification of the pngtuberbot core: a shallow embedding of the
layout engine (`layout.py`), the presence/state reconciler (`state.py`),
the RMS voice-activity detector (`voice_activity.py`) and the overlay
fade/fallback logic (`obs_client.py` + `state.py`), together with
theorems settling the specification's claims about them.
-/

/-! ### Layout engine (`layout.py`) -/

/-- The four icon corners (`IconPosition` literal in `config.py`). -/
inductive IconPosition
  | topLeft
  | topRight
  | bottomLeft
  | bottomRight
deriving DecidableEq

/-- The fields of `UserConfig` that the layout engine's slot assignment reads. -/
structure UserConfig where
  discord_id : Nat
  position_slot : Option Int
deriving DecidableEq

/-- Insertion-ordered association list standing for a python `dict[int, int]`. -/
abbrev SlotMap := List (Nat × Int)

/-- Lookup in an insertion-ordered association list (python `dict` access /
`in` test on keys). -/
def alookup {α : Type} : List (Nat × α) → Nat → Option α
  | [], _ => none
  | p :: rest, k => if p.1 = k then some p.2 else alookup rest k

/-- Python `dict` assignment `d[k] = v`: replace in place when the key exists,
append otherwise (insertion order preserved). -/
def adinsert {α : Type} (m : List (Nat × α)) (k : Nat) (v : α) : List (Nat × α) :=
  if (alookup m k).isSome then
    m.map (fun p => if p.1 = k then (k, v) else p)
  else m ++ [(k, v)]

/-- Python `set.add` on the `taken` slot set (membership-only semantics). -/
def sadd (taken : List Int) (s : Int) : List Int :=
  if s ∈ taken then taken else taken ++ [s]

/-- The layout engine's failure kinds (`ValueError`s in `layout.py`). -/
inductive LayoutErr
  | capacityExceeded
  | missingSlotPosition
deriving DecidableEq

/-- First pass of `assign_slots`: explicit slots, in input order.  A slot is
skipped when already taken or outside `1..6`; otherwise it is recorded in
`taken` and the user is bound to it. -/
def pass1 (users : List UserConfig) (taken : List Int) (out : SlotMap) :
    List Int × SlotMap :=
  match users with
  | [] => (taken, out)
  | u :: rest =>
    match u.position_slot with
    | none => pass1 rest taken out
    | some s =>
      if s ∈ taken then pass1 rest taken out
      else if 1 ≤ s ∧ s ≤ 6 then pass1 rest (sadd taken s) (adinsert out u.discord_id s)
      else pass1 rest taken out

/-- `for slot in range(1, 7): if slot not in taken: ...` — the lowest free slot. -/
def firstFree (taken : List Int) : Option Int :=
  ([1, 2, 3, 4, 5, 6] : List Int).find? (fun s => !(taken.contains s))

/-- Second pass of `assign_slots`, returning the final `taken` set as well:
users already bound are skipped, the rest receive the lowest free slot in
input order; a `ValueError` ("No free slots remaining") is raised when none
is left. -/
def pass2St (users : List UserConfig) (taken : List Int) (out : SlotMap) :
    Except LayoutErr (List Int × SlotMap) :=
  match users with
  | [] => .ok (taken, out)
  | u :: rest =>
    if (alookup out u.discord_id).isSome then pass2St rest taken out
    else
      match firstFree taken with
      | some s => pass2St rest (sadd taken s) (adinsert out u.discord_id s)
      | none => .error .capacityExceeded

/-- `assign_slots(users)` from `layout.py`: explicit pass then auto pass. -/
def assign_slots (users : List UserConfig) : Except LayoutErr SlotMap :=
  let p := pass1 users [] []
  (pass2St users p.1 p.2).map Prod.snd

/-- `_icon_anchor` from `layout.py`: icon origin for a corner and stack index
(0 = mute icon, 1 = deafen icon).  Top corners stack down, bottom corners
stack up; the offset inside the avatar is clamped at zero with `max`. -/
def icon_anchor (avatar_x avatar_y avatar_w avatar_h icon_size : Int)
    (icon_position : IconPosition) (stack_index : Int) : Int × Int :=
  let dy : Int :=
    match icon_position with
    | .topLeft | .topRight => stack_index * (icon_size + 2)
    | .bottomLeft | .bottomRight => -stack_index * (icon_size + 2)
  let x : Int :=
    match icon_position with
    | .topLeft | .bottomLeft => avatar_x
    | .topRight | .bottomRight => avatar_x + max 0 (avatar_w - icon_size)
  let y : Int :=
    match icon_position with
    | .topLeft | .topRight => avatar_y + dy
    | .bottomLeft | .bottomRight => avatar_y + max 0 (avatar_h - icon_size) + dy
  (x, y)

deriving instance DecidableEq for Except

example : icon_anchor 100 100 200 150 32 .bottomLeft 0 = (100, 218) := by decide
example : icon_anchor 100 100 200 150 32 .bottomLeft 1 = (100, 184) := by decide
example : icon_anchor 0 0 10 10 32 .topRight 0 = (0, 0) := by decide
example : assign_slots [⟨1, none⟩] = .ok [(1, 1)] := by decide
example : assign_slots [⟨1, some 3⟩, ⟨2, some 3⟩, ⟨3, none⟩] =
    .ok [(1, 3), (2, 1), (3, 2)] := by decide
example : assign_slots [⟨1, none⟩, ⟨2, none⟩, ⟨3, none⟩, ⟨4, none⟩, ⟨5, none⟩,
    ⟨6, none⟩, ⟨7, none⟩] = .error .capacityExceeded := by decide

/-! ### Presence/State Reconciler (`state.py`) -/

/-- The scene elements belonging to one tracked person (`_scene_items[uid]`). -/
inductive Elem
  | avatar
  | muteIcon
  | deafIcon
deriving DecidableEq

/-- One compositor directive issued by `PNGTuberBotRuntime` for one person:
`set_image_file`, `_fade_or_toggle` (animated show/hide) or
`set_scene_item_enabled` (instant visibility). -/
inductive Directive
  | setImage (e : Elem) (path : String)
  | fadeOrToggle (e : Elem) (visible : Bool)
  | setEnabled (e : Elem) (enabled : Bool)
deriving DecidableEq

/-- `_UserRuntime` from `state.py` — the cached per-person flags.  Note the
dataclass has no `speaking` field. -/
structure UserRuntime where
  present : Bool
  muted : Bool
  deafened : Bool
deriving DecidableEq

/-- The per-person image assets the reconciler reads from `UserConfig`. -/
structure UserAssets where
  idle_animation : String
  talking_animation : String
deriving DecidableEq

/-- `on_presence_change` for one tracked person.  `hasHandles` mirrors
`self._scene_items.get(uid)` being populated (true after
`setup_obs_sources`); `twm` is `cfg.advanced.talking_while_muted`.
Returns the updated `_UserRuntime` and the directives issued, in order. -/
def on_presence_change (a : UserAssets) (hasHandles : Bool) (st : UserRuntime)
    (joined : Bool) : UserRuntime × List Directive :=
  let st' : UserRuntime := { st with present := joined }
  if !hasHandles then (st', [])
  else if joined then
    (st', [Directive.setImage .avatar a.idle_animation,
           Directive.fadeOrToggle .avatar true,
           Directive.setEnabled .muteIcon st.muted,
           Directive.setEnabled .deafIcon st.deafened])
  else
    (st', [Directive.setImage .avatar a.idle_animation,
           Directive.fadeOrToggle .avatar false,
           Directive.setEnabled .muteIcon false,
           Directive.setEnabled .deafIcon false])

/-- `on_mute_deaf_change` for one tracked person. -/
def on_mute_deaf_change (a : UserAssets) (twm : Bool) (hasHandles : Bool)
    (st : UserRuntime) (muted deafened : Bool) : UserRuntime × List Directive :=
  let st' : UserRuntime := { st with muted := muted, deafened := deafened }
  if !hasHandles then (st', [])
  else if !st'.present then (st', [])
  else
    let icons : List Directive :=
      [Directive.setEnabled .muteIcon st'.muted, Directive.setEnabled .deafIcon st'.deafened]
    if st'.muted && !twm then
      (st', icons ++ [Directive.setImage .avatar a.idle_animation])
    else (st', icons)

/-- `on_speaking_change` for one tracked person: absent persons are ignored;
when muted with talking-while-muted disabled the raw `speaking` flag is
forced to `false`; the avatar image is then set unconditionally. -/
def on_speaking_change (a : UserAssets) (twm : Bool) (st : UserRuntime)
    (speaking : Bool) : UserRuntime × List Directive :=
  if !st.present then (st, [])
  else
    let speaking' := if st.muted && !twm then false else speaking
    let path := if speaking' then a.talking_animation else a.idle_animation
    (st, [Directive.setImage .avatar path])

/-- Directives of `on_presence_change` as a function of the resulting state
only (the event identity `joined` equals the resulting `present` flag). -/
def presenceDirectives (a : UserAssets) (hasHandles : Bool)
    (st' : UserRuntime) : List Directive :=
  if !hasHandles then []
  else if st'.present then
    [Directive.setImage .avatar a.idle_animation, Directive.fadeOrToggle .avatar true,
     Directive.setEnabled .muteIcon st'.muted, Directive.setEnabled .deafIcon st'.deafened]
  else
    [Directive.setImage .avatar a.idle_animation, Directive.fadeOrToggle .avatar false,
     Directive.setEnabled .muteIcon false, Directive.setEnabled .deafIcon false]

/-- Directives of `on_mute_deaf_change` as a function of the resulting state
only (the event's `muted`/`deafened` pair is stored in the resulting state). -/
def muteDeafDirectives (a : UserAssets) (twm : Bool) (hasHandles : Bool)
    (st' : UserRuntime) : List Directive :=
  if !hasHandles then []
  else if !st'.present then []
  else
    let icons : List Directive :=
      [Directive.setEnabled .muteIcon st'.muted, Directive.setEnabled .deafIcon st'.deafened]
    if st'.muted && !twm then icons ++ [Directive.setImage .avatar a.idle_animation]
    else icons

/-- Directives of `on_speaking_change` as a function of the resulting state
plus the event's `speaking` flag (which is not part of `_UserRuntime`). -/
def speakingDirectives (a : UserAssets) (twm : Bool) (st' : UserRuntime)
    (speaking : Bool) : List Directive :=
  if !st'.present then []
  else if (if st'.muted && !twm then false else speaking) then
    [Directive.setImage .avatar a.talking_animation]
  else [Directive.setImage .avatar a.idle_animation]

/-- C1 counterexample: a `speaking=true` event for a present, muted person
with talking-while-muted disabled does NOT produce zero directives — the
code issues a (redundant) set-image directive re-asserting the idle asset. -/
theorem claim_C1_cex :
    (on_speaking_change ⟨"idle.png", "talk.png"⟩ false ⟨true, true, false⟩ true).2 ≠ [] := by
  decide

/-- C1 (amended): for every present, muted person, with talking-while-muted
disabled, a speaking-change event (in particular `speaking=true`) leaves the
state unchanged and issues exactly one directive, which re-asserts the idle
asset on the avatar; no directive selecting the talking asset is issued. -/
theorem claim_C1 (a : UserAssets) (d sp : Bool) :
    on_speaking_change a false ⟨true, true, d⟩ sp =
      (⟨true, true, d⟩, [Directive.setImage .avatar a.idle_animation]) := by
  simp [on_speaking_change]

/-- C2 counterexample: a mute/deafen event repeating the person's current
flags leaves the `RuntimeState` (and hence every derived value) unchanged,
yet the code still issues directives — the output is not redundancy-free. -/
theorem claim_C2_cex :
    (on_mute_deaf_change ⟨"idle.png", "talk.png"⟩ false true ⟨true, true, false⟩ true false).1
        = ⟨true, true, false⟩ ∧
    (on_mute_deaf_change ⟨"idle.png", "talk.png"⟩ false true ⟨true, true, false⟩ true false).2
        ≠ [] := by
  decide

/-- C2 (amended): for every reconciler event, the directives issued are a
pure function of the resulting `RuntimeState` plus the event's identity
(witnessed by the `presenceDirectives` / `muteDeafDirectives` /
`speakingDirectives` functions, which read nothing else); directives may
however be issued redundantly for derived values that did not change. -/
theorem claim_C2 (a : UserAssets) (twm h : Bool) (st : UserRuntime)
    (joined m d sp : Bool) :
    (on_presence_change a h st joined).2 =
      presenceDirectives a h (on_presence_change a h st joined).1 ∧
    (on_mute_deaf_change a twm h st m d).2 =
      muteDeafDirectives a twm h (on_mute_deaf_change a twm h st m d).1 ∧
    (on_speaking_change a twm st sp).2 =
      speakingDirectives a twm (on_speaking_change a twm st sp).1 sp := by
  obtain ⟨p, mu, de⟩ := st
  refine ⟨?_, ?_, ?_⟩
  · cases h <;> cases joined <;>
      simp [on_presence_change, presenceDirectives]
  · cases h <;> cases p <;> cases m <;> cases twm <;>
      simp [on_mute_deaf_change, muteDeafDirectives]
  · cases p <;> cases mu <;> cases twm <;> cases sp <;>
      simp [on_speaking_change, speakingDirectives]

/-- C9: a mute/deafen event while absent updates only the cached flags and
issues zero directives; the join event alone then restores the icon
visibility from those cached flags (no further mute/deafen event needed). -/
theorem claim_C9 (a : UserAssets) (twm h : Bool) (mu de m d : Bool) :
    on_mute_deaf_change a twm h ⟨false, mu, de⟩ m d = (⟨false, m, d⟩, []) ∧
    on_presence_change a true (on_mute_deaf_change a twm h ⟨false, mu, de⟩ m d).1 true =
      (⟨true, m, d⟩,
       [Directive.setImage .avatar a.idle_animation,
        Directive.fadeOrToggle .avatar true,
        Directive.setEnabled .muteIcon m,
        Directive.setEnabled .deafIcon d]) := by
  have h1 : on_mute_deaf_change a twm h ⟨false, mu, de⟩ m d = (⟨false, m, d⟩, []) := by
    cases h <;> simp [on_mute_deaf_change]
  refine ⟨h1, ?_⟩
  rw [h1]
  simp [on_presence_change]

/-! ### Voice Activity Detector (`voice_activity.py`) -/

/-- `_UserSpeakingState`: per-person debounce state, created lazily. -/
structure UserSpeakingState where
  speaking : Bool
  last_loud_t : ℚ
deriving DecidableEq

/-- Detector configuration (`threshold`, `hangover_s = max 0 (hangover_ms/1000)`). -/
structure DetectorCfg where
  threshold : ℚ
  hangover_s : ℚ
deriving DecidableEq

/-- The `RmsVoiceActivityDetector.__init__` computation of `hangover_s`. -/
def mkDetectorCfg (threshold : ℚ) (hangover_ms : ℤ) : DetectorCfg :=
  ⟨threshold, max 0 ((hangover_ms : ℚ) / 1000)⟩

/-- Mutable detector fields: `_closed`, whether `_task` is set, `_states`. -/
structure DetectorState where
  closed : Bool
  running : Bool
  states : List (Nat × UserSpeakingState)
deriving DecidableEq

/-- `close()`: set `_closed`, cancel and drop the tick task. -/
def closeDet (s : DetectorState) : DetectorState :=
  { s with closed := true, running := false }

/-- `start()`: create the tick task unless already running or closed. -/
def startDet (s : DetectorState) : DetectorState :=
  if s.running || s.closed then s else { s with running := true }

/-- `on_pcm` at the energy level (the RMS value `audioop.rms(pcm,2)/32768`
is computed outside this model): no-op when closed; otherwise get or lazily
create the per-person state, and on a loud sample refresh
`last_loud_t` and emit `(user_id, true)` when not already speaking.
Returns the new state and the scheduled transitions. -/
def on_pcm_energy (cfg : DetectorCfg) (s : DetectorState) (user_id : Nat)
    (rms now : ℚ) : DetectorState × List (Nat × Bool) :=
  if s.closed then (s, [])
  else
    let st := (alookup s.states user_id).getD ⟨false, 0⟩
    if cfg.threshold ≤ rms then
      if st.speaking then
        ({ s with states := adinsert s.states user_id ⟨true, now⟩ }, [])
      else
        ({ s with states := adinsert s.states user_id ⟨true, now⟩ }, [(user_id, true)])
    else
      ({ s with states := adinsert s.states user_id st }, [])

/-- One sweep of the body of `_tick_loop` on one person's state: retract
`speaking` when the hangover has elapsed (strict `>`), keeping `last_loud_t`. -/
def sweepStep (cfg : DetectorCfg) (st : UserSpeakingState) (now : ℚ) : UserSpeakingState :=
  if st.speaking && decide (cfg.hangover_s < now - st.last_loud_t) then
    ⟨false, st.last_loud_t⟩
  else st

/-- The sweep's retraction test `st.speaking and now - st.last_loud_t > hangover_s`. -/
def expiredP (cfg : DetectorCfg) (now : ℚ) : Nat × UserSpeakingState → Bool :=
  fun p => p.2.speaking && decide (cfg.hangover_s < now - p.2.last_loud_t)

/-- One iteration of `_tick_loop`: guarded by `while not self._closed`;
marks every expired speaker not-speaking and emits `(user_id, false)` for
each, in dict insertion order. -/
def tick_sweep (cfg : DetectorCfg) (s : DetectorState) (now : ℚ) :
    DetectorState × List (Nat × Bool) :=
  if s.closed then (s, [])
  else
    ({ s with states := s.states.map (fun p => (p.1, sweepStep cfg p.2 now)) },
     (s.states.filter (expiredP cfg now)).map (fun p => (p.1, false)))

/-- The operations of the detector's public lifecycle. -/
inductive DetOp
  | opStart
  | opSample (user_id : Nat) (rms now : ℚ)
  | opTick (now : ℚ)
  | opClose

/-- Apply one lifecycle operation. -/
def applyOp (cfg : DetectorCfg) (s : DetectorState) :
    DetOp → DetectorState × List (Nat × Bool)
  | .opStart => (startDet s, [])
  | .opSample uid rms now => on_pcm_energy cfg s uid rms now
  | .opTick now => tick_sweep cfg s now
  | .opClose => (closeDet s, [])

/-- Run a sequence of lifecycle operations, collecting all transitions. -/
def runOps (cfg : DetectorCfg) (s : DetectorState) :
    List DetOp → DetectorState × List (Nat × Bool)
  | [] => (s, [])
  | op :: rest =>
    let r := applyOp cfg s op
    let r2 := runOps cfg r.1 rest
    (r2.1, r.2 ++ r2.2)

/-- Run a list of `(rms, time)` samples for one person through `on_pcm`. -/
def runSamples (cfg : DetectorCfg) (s : DetectorState) (user_id : Nat) :
    List (ℚ × ℚ) → DetectorState × List (Nat × Bool)
  | [] => (s, [])
  | sm :: rest =>
    let r := on_pcm_energy cfg s user_id sm.1 sm.2
    let r2 := runSamples cfg r.1 user_id rest
    (r2.1, r.2 ++ r2.2)

/-- Run a list of sweep tick times. -/
def runTicks (cfg : DetectorCfg) (s : DetectorState) :
    List ℚ → DetectorState × List (Nat × Bool)
  | [] => (s, [])
  | t :: rest =>
    let r := tick_sweep cfg s t
    let r2 := runTicks cfg r.1 rest
    (r2.1, r.2 ++ r2.2)

/-! Association-list lemmas shared by the detector and layout proofs. -/

theorem alookup_append_of_none {α : Type} {m : List (Nat × α)} {k : Nat}
    (m' : List (Nat × α)) (h : alookup m k = none) :
    alookup (m ++ m') k = alookup m' k := by
  induction m with
  | nil => rfl
  | cons p rest ih =>
      by_cases hp : p.1 = k
      · simp [alookup, hp] at h
      · simp [alookup, hp] at h ⊢
        exact ih h

theorem alookup_append_of_some {α : Type} {m : List (Nat × α)} {k : Nat} {v : α}
    (m' : List (Nat × α)) (h : alookup m k = some v) :
    alookup (m ++ m') k = some v := by
  induction m with
  | nil => simp [alookup] at h
  | cons p rest ih =>
      by_cases hp : p.1 = k
      · simp [alookup, hp] at h ⊢
        exact h
      · simp [alookup, hp] at h ⊢
        exact ih h

theorem alookup_map_replace {α : Type} {m : List (Nat × α)} {k : Nat} (v : α)
    (h : (alookup m k).isSome) :
    alookup (m.map (fun p => if p.1 = k then (k, v) else p)) k = some v := by
  induction m with
  | nil => simp [alookup] at h
  | cons p rest ih =>
      by_cases hp : p.1 = k
      · simp [alookup, hp]
      · simp [alookup, hp] at h ⊢
        exact ih h

theorem alookup_map_replace_ne {α : Type} {m : List (Nat × α)} {k k' : Nat} (v : α)
    (hne : k' ≠ k) :
    alookup (m.map (fun p => if p.1 = k then (k, v) else p)) k' = alookup m k' := by
  have hkk : k ≠ k' := fun hx => hne hx.symm
  induction m with
  | nil => rfl
  | cons p rest ih =>
      by_cases hp : p.1 = k
      · have hpk : p.1 ≠ k' := by rw [hp]; exact hkk
        simp [alookup, hp, hkk, hpk, ih]
      · by_cases hp' : p.1 = k'
        · simp [alookup, hp', hne, ih]
        · simp [alookup, hp, hp', ih]

theorem alookup_adinsert_self {α : Type} (m : List (Nat × α)) (k : Nat) (v : α) :
    alookup (adinsert m k v) k = some v := by
  cases hm : alookup m k with
  | some w =>
      have h : (alookup m k).isSome := by rw [hm]; rfl
      simp only [adinsert, hm, Option.isSome_some, if_true]
      exact alookup_map_replace v h
  | none =>
      simp only [adinsert, hm, Option.isSome_none, Bool.false_eq_true, if_false]
      rw [alookup_append_of_none _ hm]
      simp [alookup]

theorem alookup_adinsert_ne {α : Type} (m : List (Nat × α)) {k k' : Nat} (v : α)
    (hne : k' ≠ k) :
    alookup (adinsert m k v) k' = alookup m k' := by
  cases hm : alookup m k with
  | some w =>
      simp only [adinsert, hm, Option.isSome_some, if_true]
      exact alookup_map_replace_ne v hne
  | none =>
      simp only [adinsert, hm, Option.isSome_none, Bool.false_eq_true, if_false]
      cases hm' : alookup m k' with
      | none =>
          rw [alookup_append_of_none _ hm']
          simp [alookup, Ne.symm hne]
      | some w' => exact alookup_append_of_some _ hm'

theorem adinsert_fresh {α : Type} {m : List (Nat × α)} {k : Nat} (v : α)
    (h : alookup m k = none) :
    adinsert m k v = m ++ [(k, v)] := by
  simp [adinsert, h]

/-! Lemmas about closed detectors. -/

theorem applyOp_closed (cfg : DetectorCfg) (s : DetectorState)
    (hc : s.closed = true) (hr : s.running = false) (op : DetOp) :
    applyOp cfg s op = (s, []) := by
  cases op with
  | opStart => simp [applyOp, startDet, hc]
  | opSample uid rms now => simp [applyOp, on_pcm_energy, hc]
  | opTick now => simp [applyOp, tick_sweep, hc]
  | opClose =>
      cases s with
      | mk c r sts =>
          simp only [applyOp, closeDet]
          simp at hc hr
          rw [hc, hr]

theorem runOps_closed (cfg : DetectorCfg) (s : DetectorState)
    (hc : s.closed = true) (hr : s.running = false) :
    ∀ ops, runOps cfg s ops = (s, []) := by
  intro ops
  induction ops with
  | nil => rfl
  | cons op rest ih =>
      simp [runOps, applyOp_closed cfg s hc hr op, ih]

/-- C10: `close()` is permanent — it marks the detector closed with no sweep
task, and from any closed state `start()` is a no-op that never restarts the
sweep, `on_pcm` is a no-op creating no per-person state, a sweep tick does
nothing, and no sequence of lifecycle operations ever emits a transition
again. -/
theorem claim_C10 (cfg : DetectorCfg) (s : DetectorState) (ops : List DetOp) :
    ((closeDet s).closed = true ∧ (closeDet s).running = false) ∧
    (s.closed = true → startDet s = s) ∧
    (s.closed = true → ∀ uid rms now, on_pcm_energy cfg s uid rms now = (s, [])) ∧
    (s.closed = true → ∀ now, tick_sweep cfg s now = (s, [])) ∧
    (s.closed = true → s.running = false → runOps cfg s ops = (s, [])) := by
  refine ⟨⟨rfl, rfl⟩, ?_, ?_, ?_, ?_⟩
  · intro h; simp [startDet, h]
  · intro h uid rms now; simp [on_pcm_energy, h]
  · intro h now; simp [tick_sweep, h]
  · intro hc hr; exact runOps_closed cfg s hc hr ops

/-- C10 witness: a concrete closed detector ignores a start, a loud sample
and a tick, emitting nothing. -/
theorem claim_C10_witness :
    ((closeDet ⟨false, true, []⟩).closed = true ∧
        (closeDet ⟨false, true, []⟩).running = false) ∧
    runOps ⟨1/50, 3/10⟩ ⟨true, false, [(7, ⟨true, 0⟩)]⟩
      [DetOp.opStart, DetOp.opSample 7 1 1, DetOp.opTick 2, DetOp.opClose] =
      (⟨true, false, [(7, ⟨true, 0⟩)]⟩, []) := by
  have h := claim_C10 ⟨1/50, 3/10⟩ ⟨true, false, [(7, ⟨true, 0⟩)]⟩
    [DetOp.opStart, DetOp.opSample 7 1 1, DetOp.opTick 2, DetOp.opClose]
  exact ⟨⟨rfl, rfl⟩, h.2.2.2.2 rfl rfl⟩

/-! Lemmas about `on_pcm` while already marked speaking (C6). -/

theorem runSamples_speaking (cfg : DetectorCfg) (uid : Nat) :
    ∀ (samples : List (ℚ × ℚ)) (s : DetectorState) (tl : ℚ),
      s.closed = false → alookup s.states uid = some ⟨true, tl⟩ →
      (∀ p ∈ samples, cfg.threshold ≤ p.1) →
      (runSamples cfg s uid samples).2 = [] := by
  intro samples
  induction samples with
  | nil => intro s tl _ _ _; rfl
  | cons sm rest ih =>
      intro s tl hc hl hall
      have hth : cfg.threshold ≤ sm.1 := hall sm (by simp)
      have h1 : on_pcm_energy cfg s uid sm.1 sm.2 =
          ({ s with states := adinsert s.states uid ⟨true, sm.2⟩ }, []) := by
        simp [on_pcm_energy, hc, hl, hth]
      simp only [runSamples, h1]
      rw [ih { s with states := adinsert s.states uid ⟨true, sm.2⟩ } sm.2
        hc (alookup_adinsert_self s.states uid ⟨true, sm.2⟩)
        (fun q hq => hall q (by simp [hq]))]
      rfl

/-- C6: a loud sample (energy at or above the threshold) for a person not yet
marked speaking emits exactly one `(id, true)` transition and marks the
person speaking; every further loud sample before any retraction emits
nothing and only refreshes `last_loud_t` (also over arbitrary sequences of
loud samples); a sample below the threshold emits nothing inline. -/
theorem claim_C6 (cfg : DetectorCfg) (s : DetectorState) (uid : Nat)
    (rms now tl : ℚ) :
    (s.closed = false → alookup s.states uid = none → cfg.threshold ≤ rms →
      on_pcm_energy cfg s uid rms now =
        ({ s with states := s.states ++ [(uid, ⟨true, now⟩)] }, [(uid, true)])) ∧
    (s.closed = false → alookup s.states uid = some ⟨false, tl⟩ → cfg.threshold ≤ rms →
      on_pcm_energy cfg s uid rms now =
        ({ s with states := adinsert s.states uid ⟨true, now⟩ }, [(uid, true)])) ∧
    (s.closed = false → alookup s.states uid = some ⟨true, tl⟩ → cfg.threshold ≤ rms →
      on_pcm_energy cfg s uid rms now =
        ({ s with states := adinsert s.states uid ⟨true, now⟩ }, []) ∧
      alookup (on_pcm_energy cfg s uid rms now).1.states uid = some ⟨true, now⟩) ∧
    (rms < cfg.threshold → (on_pcm_energy cfg s uid rms now).2 = []) ∧
    (∀ samples : List (ℚ × ℚ), s.closed = false →
      alookup s.states uid = some ⟨true, tl⟩ →
      (∀ p ∈ samples, cfg.threshold ≤ p.1) →
      (runSamples cfg s uid samples).2 = []) := by
  refine ⟨?_, ?_, ?_, ?_, ?_⟩
  · intro hc hl hth
    rw [show s.states ++ [(uid, (⟨true, now⟩ : UserSpeakingState))] =
          adinsert s.states uid ⟨true, now⟩ from (adinsert_fresh _ hl).symm]
    simp [on_pcm_energy, hc, hl, hth]
  · intro hc hl hth
    simp [on_pcm_energy, hc, hl, hth]
  · intro hc hl hth
    have h1 : on_pcm_energy cfg s uid rms now =
        ({ s with states := adinsert s.states uid ⟨true, now⟩ }, []) := by
      simp [on_pcm_energy, hc, hl, hth]
    exact ⟨h1, by rw [h1]; exact alookup_adinsert_self s.states uid ⟨true, now⟩⟩
  · intro hlt
    by_cases hc : s.closed
    · simp [on_pcm_energy, hc]
    · simp only [Bool.not_eq_true] at hc
      simp [on_pcm_energy, hc, not_le.mpr hlt]
  · intro samples hc hl hall
    exact runSamples_speaking cfg uid samples s tl hc hl hall

/-- C6 witness: with threshold `0.02`, a first loud sample (energy `0.5`)
emits exactly `(7, true)`; two further loud samples emit nothing. -/
theorem claim_C6_witness :
    on_pcm_energy ⟨1/50, 3/10⟩ ⟨false, true, []⟩ 7 (1/2) 1 =
      (⟨false, true, [(7, ⟨true, 1⟩)]⟩, [(7, true)]) ∧
    (runSamples ⟨1/50, 3/10⟩ ⟨false, true, [(7, ⟨true, 1⟩)]⟩ 7
        [(1/2, 2), (1/2, 3)]).2 = [] := by
  constructor
  · have h := (claim_C6 ⟨1/50, 3/10⟩ ⟨false, true, []⟩ 7 (1/2) 1 0).1
      rfl rfl (by norm_num)
    simpa using h
  · have hall : ∀ p ∈ ([(1/2, 2), (1/2, 3)] : List (ℚ × ℚ)),
        (⟨1/50, 3/10⟩ : DetectorCfg).threshold ≤ p.1 := by
      intro p hp
      simp only [List.mem_cons, List.mem_singleton, List.not_mem_nil, or_false] at hp
      obtain h1 | h1 := hp <;> rw [h1] <;> norm_num
    exact (claim_C6 ⟨1/50, 3/10⟩ ⟨false, true, [(7, ⟨true, 1⟩)]⟩ 7 (1/2) 1 1).2.2.2.2
      [(1/2, 2), (1/2, 3)] rfl (by simp [alookup]) hall

/-! Lemmas about the sweep (C7). -/

theorem alookup_mapval {α β : Type} (g : α → β) (k : Nat) :
    ∀ (m : List (Nat × α)),
      alookup (m.map (fun p => (p.1, g p.2))) k = (alookup m k).map g := by
  intro m
  induction m with
  | nil => rfl
  | cons p rest ih =>
      by_cases hp : p.1 = k <;> simp [alookup, hp, ih]

theorem mapfst_mapval {α β : Type} (g : α → β) (m : List (Nat × α)) :
    (m.map (fun p => (p.1, g p.2))).map Prod.fst = m.map Prod.fst := by
  induction m with
  | nil => rfl
  | cons p rest ih => simp [ih]

theorem emit_filter_not_mem {α : Type} (P : Nat × α → Bool) (uid : Nat) :
    ∀ (m : List (Nat × α)), uid ∉ m.map Prod.fst →
      ((m.filter P).map (fun p => (p.1, false))).filter
        (fun q => decide (q.1 = uid)) = [] := by
  intro m
  induction m with
  | nil => intro _; rfl
  | cons p rest ih =>
      intro hmem
      simp only [List.map_cons, List.mem_cons, not_or] at hmem
      by_cases hP : P p = true
      · rw [List.filter_cons_of_pos hP]
        simp only [List.map_cons, List.filter_cons]
        have hd : (decide ((p.1, false).1 = uid)) = false := by
          simp [Ne.symm hmem.1]
        rw [hd]
        simp only [Bool.false_eq_true, if_false]
        exact ih hmem.2
      · rw [List.filter_cons_of_neg (by simpa using hP)]
        exact ih hmem.2

theorem emit_filter_uid_some {α : Type} (P : Nat × α → Bool) (uid : Nat) (st : α) :
    ∀ (m : List (Nat × α)), (m.map Prod.fst).Nodup → alookup m uid = some st →
      ((m.filter P).map (fun p => (p.1, false))).filter
        (fun q => decide (q.1 = uid)) =
      (if P (uid, st) then [((uid : Nat), false)] else []) := by
  intro m
  induction m with
  | nil => intro _ h; simp [alookup] at h
  | cons p rest ih =>
      intro hnd hl
      obtain ⟨k, v⟩ := p
      simp only [List.map_cons, List.nodup_cons] at hnd
      by_cases hp : k = uid
      · have hst : v = st := by
          simp only [alookup, hp, if_pos] at hl
          exact Option.some.inj (by simpa using hl)
        subst hp
        subst hst
        have hrest : ((rest.filter P).map (fun p => (p.1, false))).filter
            (fun q => decide (q.1 = k)) = [] := emit_filter_not_mem P k rest hnd.1
        by_cases hP : P (k, v) = true
        · rw [List.filter_cons_of_pos hP]
          simp [hP, hrest]
        · rw [List.filter_cons_of_neg (by simpa using hP)]
          simp [hP, hrest]
      · have hl' : alookup rest uid = some st := by
          simpa [alookup, hp] using hl
        by_cases hP : P (k, v) = true
        · rw [List.filter_cons_of_pos hP]
          simp only [List.map_cons, List.filter_cons]
          have hd : (decide (((k, v).1, false).1 = uid)) = false := by simp [hp]
          rw [hd]
          simp only [Bool.false_eq_true, if_false]
          exact ih hnd.2 hl'
        · rw [List.filter_cons_of_neg (by simpa using hP)]
          exact ih hnd.2 hl'

theorem nodup_mapfst_mapval {α β : Type} (g : α → β) (m : List (Nat × α))
    (h : (m.map Prod.fst).Nodup) :
    ((m.map (fun p => (p.1, g p.2))).map Prod.fst).Nodup := by
  rw [mapfst_mapval]
  exact h

theorem tick_uid_quiet (cfg : DetectorCfg) (s : DetectorState) (now : ℚ)
    (uid : Nat) (tl : ℚ) (hc : s.closed = false)
    (hnd : (s.states.map Prod.fst).Nodup)
    (hl : alookup s.states uid = some ⟨true, tl⟩)
    (hq : now - tl ≤ cfg.hangover_s) :
    (tick_sweep cfg s now).2.filter (fun q => decide (q.1 = uid)) = [] ∧
    (tick_sweep cfg s now).1.closed = false ∧
    ((tick_sweep cfg s now).1.states.map Prod.fst).Nodup ∧
    alookup (tick_sweep cfg s now).1.states uid = some ⟨true, tl⟩ := by
  have hP : expiredP cfg now (uid, ⟨true, tl⟩) = false := by
    simp [expiredP, not_lt.mpr hq]
  refine ⟨?_, ?_, ?_, ?_⟩
  · rw [show (tick_sweep cfg s now).2 =
        (s.states.filter (expiredP cfg now)).map (fun p => (p.1, false)) by
      simp [tick_sweep, hc]]
    rw [emit_filter_uid_some (expiredP cfg now) uid ⟨true, tl⟩ s.states hnd hl]
    simp [hP]
  · simp [tick_sweep, hc]
  · simp only [tick_sweep, hc, Bool.false_eq_true, if_false]
    exact nodup_mapfst_mapval (fun st => sweepStep cfg st now) s.states hnd
  · simp only [tick_sweep, hc, Bool.false_eq_true, if_false]
    rw [alookup_mapval (fun st => sweepStep cfg st now) uid s.states, hl]
    simp [sweepStep, not_lt.mpr hq]

theorem tick_uid_expired (cfg : DetectorCfg) (s : DetectorState) (now : ℚ)
    (uid : Nat) (tl : ℚ) (hc : s.closed = false)
    (hnd : (s.states.map Prod.fst).Nodup)
    (hl : alookup s.states uid = some ⟨true, tl⟩)
    (hq : cfg.hangover_s < now - tl) :
    (tick_sweep cfg s now).2.filter (fun q => decide (q.1 = uid)) = [(uid, false)] ∧
    (tick_sweep cfg s now).1.closed = false ∧
    ((tick_sweep cfg s now).1.states.map Prod.fst).Nodup ∧
    alookup (tick_sweep cfg s now).1.states uid = some ⟨false, tl⟩ := by
  have hP : expiredP cfg now (uid, ⟨true, tl⟩) = true := by
    simp [expiredP, hq]
  refine ⟨?_, ?_, ?_, ?_⟩
  · rw [show (tick_sweep cfg s now).2 =
        (s.states.filter (expiredP cfg now)).map (fun p => (p.1, false)) by
      simp [tick_sweep, hc]]
    rw [emit_filter_uid_some (expiredP cfg now) uid ⟨true, tl⟩ s.states hnd hl]
    simp [hP]
  · simp [tick_sweep, hc]
  · simp only [tick_sweep, hc, Bool.false_eq_true, if_false]
    exact nodup_mapfst_mapval (fun st => sweepStep cfg st now) s.states hnd
  · simp only [tick_sweep, hc, Bool.false_eq_true, if_false]
    rw [alookup_mapval (fun st => sweepStep cfg st now) uid s.states, hl]
    simp [sweepStep, hq]

theorem runTicks_uid_done (cfg : DetectorCfg) (uid : Nat) (tl : ℚ) :
    ∀ (ts : List ℚ) (s : DetectorState),
      (s.states.map Prod.fst).Nodup →
      alookup s.states uid = some ⟨false, tl⟩ →
      (runTicks cfg s ts).2.filter (fun q => decide (q.1 = uid)) = [] := by
  intro ts
  induction ts with
  | nil => intro s _ _; rfl
  | cons t rest ih =>
      intro s hnd hl
      by_cases hc : s.closed = true
      · have h1 : tick_sweep cfg s t = (s, []) := by simp [tick_sweep, hc]
        simp only [runTicks, h1]
        simpa using ih s hnd hl
      · simp only [Bool.not_eq_true] at hc
        have hP : expiredP cfg t (uid, ⟨false, tl⟩) = false := by
          simp [expiredP]
        have hem : (tick_sweep cfg s t).2.filter (fun q => decide (q.1 = uid)) = [] := by
          rw [show (tick_sweep cfg s t).2 =
              (s.states.filter (expiredP cfg t)).map (fun p => (p.1, false)) by
            simp [tick_sweep, hc]]
          rw [emit_filter_uid_some (expiredP cfg t) uid ⟨false, tl⟩ s.states hnd hl]
          simp [hP]
        have hnd' : ((tick_sweep cfg s t).1.states.map Prod.fst).Nodup := by
          simp only [tick_sweep, hc, Bool.false_eq_true, if_false]
          exact nodup_mapfst_mapval (fun st => sweepStep cfg st t) s.states hnd
        have hl' : alookup (tick_sweep cfg s t).1.states uid = some ⟨false, tl⟩ := by
          simp only [tick_sweep, hc, Bool.false_eq_true, if_false]
          rw [alookup_mapval (fun st => sweepStep cfg st t) uid s.states, hl]
          simp [sweepStep]
        simp only [runTicks, List.filter_append, hem]
        simpa using ih _ hnd' hl'

theorem runTicks_uid_quiet (cfg : DetectorCfg) (uid : Nat) (tl : ℚ) :
    ∀ (ts : List ℚ) (s : DetectorState),
      s.closed = false →
      (s.states.map Prod.fst).Nodup →
      alookup s.states uid = some ⟨true, tl⟩ →
      (∀ t ∈ ts, t - tl ≤ cfg.hangover_s) →
      (runTicks cfg s ts).2.filter (fun q => decide (q.1 = uid)) = [] ∧
      (runTicks cfg s ts).1.closed = false ∧
      ((runTicks cfg s ts).1.states.map Prod.fst).Nodup ∧
      alookup (runTicks cfg s ts).1.states uid = some ⟨true, tl⟩ := by
  intro ts
  induction ts with
  | nil => intro s hc hnd hl _; exact ⟨rfl, hc, hnd, hl⟩
  | cons t rest ih =>
      intro s hc hnd hl hall
      obtain ⟨h1, h2, h3, h4⟩ :=
        tick_uid_quiet cfg s t uid tl hc hnd hl (hall t (by simp))
      obtain ⟨g1, g2, g3, g4⟩ :=
        ih (tick_sweep cfg s t).1 h2 h3 h4 (fun q hq => hall q (by simp [hq]))
      refine ⟨?_, g2, g3, g4⟩
      simp only [runTicks, List.filter_append, h1, g1, List.append_nil]

theorem runTicks_append (cfg : DetectorCfg) :
    ∀ (ts1 ts2 : List ℚ) (s : DetectorState),
      runTicks cfg s (ts1 ++ ts2) =
        ((runTicks cfg (runTicks cfg s ts1).1 ts2).1,
         (runTicks cfg s ts1).2 ++ (runTicks cfg (runTicks cfg s ts1).1 ts2).2) := by
  intro ts1
  induction ts1 with
  | nil => intro ts2 s; simp [runTicks]
  | cons t rest ih =>
      intro ts2 s
      simp only [List.cons_append, runTicks, List.append_eq]
      rw [ih ts2 (tick_sweep cfg s t).1]
      simp [List.append_assoc]

/-- C7: while a person is marked speaking, a sweep tick at a time with
`now - lastLoudTimestamp ≤ hangover` emits nothing for that person and keeps
them speaking; a tick with `now - lastLoudTimestamp > hangover` emits exactly
one `(id, false)` and marks them not speaking; and over any run of ticks —
quiet ticks, then a first expiring tick, then arbitrary further ticks with no
intervening loud sample — exactly one `(id, false)` is emitted in total, at
that first expiring tick. -/
theorem claim_C7 (cfg : DetectorCfg) (s : DetectorState) (uid : Nat) (tl : ℚ) :
    (∀ now, s.closed = false → (s.states.map Prod.fst).Nodup →
      alookup s.states uid = some ⟨true, tl⟩ → now - tl ≤ cfg.hangover_s →
      (tick_sweep cfg s now).2.filter (fun q => decide (q.1 = uid)) = [] ∧
      alookup (tick_sweep cfg s now).1.states uid = some ⟨true, tl⟩) ∧
    (∀ now, s.closed = false → (s.states.map Prod.fst).Nodup →
      alookup s.states uid = some ⟨true, tl⟩ → cfg.hangover_s < now - tl →
      (tick_sweep cfg s now).2.filter (fun q => decide (q.1 = uid)) = [(uid, false)] ∧
      alookup (tick_sweep cfg s now).1.states uid = some ⟨false, tl⟩) ∧
    (∀ (ts1 : List ℚ) (t0 : ℚ) (ts2 : List ℚ),
      s.closed = false → (s.states.map Prod.fst).Nodup →
      alookup s.states uid = some ⟨true, tl⟩ →
      (∀ t ∈ ts1, t - tl ≤ cfg.hangover_s) → cfg.hangover_s < t0 - tl →
      (runTicks cfg s (ts1 ++ t0 :: ts2)).2.filter (fun q => decide (q.1 = uid)) =
        [(uid, false)]) := by
  refine ⟨?_, ?_, ?_⟩
  · intro now hc hnd hl hq
    obtain ⟨h1, _, _, h4⟩ := tick_uid_quiet cfg s now uid tl hc hnd hl hq
    exact ⟨h1, h4⟩
  · intro now hc hnd hl hq
    obtain ⟨h1, _, _, h4⟩ := tick_uid_expired cfg s now uid tl hc hnd hl hq
    exact ⟨h1, h4⟩
  · intro ts1 t0 ts2 hc hnd hl hq1 hq0
    obtain ⟨g1, g2, g3, g4⟩ := runTicks_uid_quiet cfg uid tl ts1 s hc hnd hl hq1
    obtain ⟨e1, e2, e3, e4⟩ :=
      tick_uid_expired cfg (runTicks cfg s ts1).1 t0 uid tl g2 g3 g4 hq0
    have hdone := runTicks_uid_done cfg uid tl ts2
      (tick_sweep cfg (runTicks cfg s ts1).1 t0).1 e3 e4
    have hsplit : (runTicks cfg (runTicks cfg s ts1).1 (t0 :: ts2)).2 =
        (tick_sweep cfg (runTicks cfg s ts1).1 t0).2 ++
        (runTicks cfg (tick_sweep cfg (runTicks cfg s ts1).1 t0).1 ts2).2 := by
      simp [runTicks]
    rw [runTicks_append cfg ts1 (t0 :: ts2) s]
    simp only [List.filter_append, g1, List.nil_append]
    rw [hsplit, List.filter_append, e1, hdone]
    simp

/-- C7 witness: hangover `0.3`, last loud sample at `t = 1`; ticks at `1.1`
and `1.3` emit nothing, the tick at `1.4` (elapsed `0.4 > 0.3`) emits the
single `(7, false)`, and a later tick at `1.5` emits nothing more. -/
theorem claim_C7_witness :
    (runTicks ⟨1/50, 3/10⟩ ⟨false, true, [(7, ⟨true, 1⟩)]⟩
        ([11/10, 13/10] ++ (7/5) :: [3/2])).2.filter (fun q => decide (q.1 = 7)) =
      [(7, false)] := by
  refine (claim_C7 ⟨1/50, 3/10⟩ ⟨false, true, [(7, ⟨true, 1⟩)]⟩ 7 1).2.2
    [11/10, 13/10] (7/5) [3/2] rfl (by decide) (by simp [alookup]) ?_ (by norm_num)
  intro t ht
  simp only [List.mem_cons, List.mem_singleton, List.not_mem_nil, or_false] at ht
  obtain h | h := ht <;> rw [h] <;> norm_num

/-! ### Overlay fade / fallback (`obs_client.fade_scene_item` + `state._fade_or_toggle`) -/

/-- One compositor request made by the fade path: a source-opacity set (the
value already clamped to `[0,1]` as in `set_opacity`) or an instant
scene-item visibility toggle. -/
inductive ObsCall
  | setOpacity (v : ℚ)
  | setEnabled (enabled : Bool)
deriving DecidableEq

/-- Which compositor requests succeed: the n-th request made raises an
`ObsError` exactly when the oracle returns `false` at n. -/
abbrev Oracle := Nat → Bool

/-- Await a list of compositor requests in order, stopping at the first one
that raises: returns the calls actually made, the next request index and
whether all succeeded. -/
def runCalls (om : Oracle) : Nat → List ObsCall → List ObsCall × Nat × Bool
  | n, [] => ([], n, true)
  | n, c :: rest =>
    if om n then
      let r := runCalls om (n + 1) rest
      (c :: r.1, r.2.1, r.2.2)
    else ([c], n + 1, false)

/-- `set_opacity`'s clamp `max(0.0, min(1.0, x))` applied to the request. -/
def set_opacity_clamped (v : ℚ) : ObsCall :=
  ObsCall.setOpacity (max 0 (min 1 v))

/-- The request sequence of `fade_scene_item`: instant toggle when the
clamped duration is zero, else `steps = max 1 ⌊duration·fps⌋` opacity ramps
(ascending after an initial hide-then-show for `show=True`, descending then a
final disable for `show=False`). -/
def fadeProgram (visible : Bool) (duration_s : ℚ) (fps : Nat) : List ObsCall :=
  let d := max 0 duration_s
  if d = 0 then [ObsCall.setEnabled visible]
  else
    let steps := max 1 (Int.toNat (Int.floor (d * fps)))
    if visible then
      set_opacity_clamped 0 :: ObsCall.setEnabled true ::
        (List.range steps).map (fun i => set_opacity_clamped (((i : ℚ) + 1) / steps))
    else
      ((List.range steps).reverse.map (fun i => set_opacity_clamped ((i : ℚ) / steps))) ++
        [ObsCall.setEnabled visible]

/-- `_fade_or_toggle`: try the animated path; on an `ObsError` fall back to a
single instant `set_scene_item_enabled`.  Returns the full request trace and
whether the whole operation succeeded (`false` = an `ObsError` escaped to
the caller). -/
def fade_or_toggle (om : Oracle) (visible : Bool) (duration_s : ℚ) :
    List ObsCall × Bool :=
  let r := runCalls om 0 (fadeProgram visible duration_s 30)
  if r.2.2 then (r.1, true)
  else
    let rb := runCalls om r.2.1 [ObsCall.setEnabled visible]
    (r.1 ++ rb.1, rb.2.2)

theorem fadeProgram_ne_nil (visible : Bool) (duration_s : ℚ) :
    fadeProgram visible duration_s 30 ≠ [] := by
  simp only [fadeProgram]
  by_cases hd : max 0 duration_s = 0
  · simp [hd]
  · simp only [hd, if_false]
    cases visible
    · simp
    · simp

/-- C8 counterexample: when every compositor request fails (first opacity
step and the fallback toggle alike), `_fade_or_toggle` does propagate an
error to its caller — only the animation failure is swallowed, not a failure
of the fallback toggle itself. -/
theorem claim_C8_cex :
    (fade_or_toggle (fun _ => false) false 1).2 = false := by
  obtain ⟨c, rest, hp⟩ :=
    List.exists_cons_of_ne_nil (fadeProgram_ne_nil false 1)
  simp [fade_or_toggle, hp, runCalls]

/-- C8 (amended): whenever the animated show/hide path fails, exactly one
fallback instant visibility toggle is attempted (the trace is the animated
path's calls followed by exactly one `setEnabled`), the animation failure
itself is never propagated, and an error reaches the caller only when that
fallback toggle itself fails; when the animated path succeeds no fallback
toggle is issued. -/
theorem claim_C8 (om : Oracle) (visible : Bool) (duration_s : ℚ) :
    ((runCalls om 0 (fadeProgram visible duration_s 30)).2.2 = false →
      (fade_or_toggle om visible duration_s).1 =
        (runCalls om 0 (fadeProgram visible duration_s 30)).1 ++
          [ObsCall.setEnabled visible] ∧
      (fade_or_toggle om visible duration_s).2 =
        om (runCalls om 0 (fadeProgram visible duration_s 30)).2.1) ∧
    ((runCalls om 0 (fadeProgram visible duration_s 30)).2.2 = true →
      fade_or_toggle om visible duration_s =
        ((runCalls om 0 (fadeProgram visible duration_s 30)).1, true)) := by
  constructor
  · intro hf
    constructor
    · simp only [fade_or_toggle, hf, Bool.false_eq_true, if_false]
      cases hb : om (runCalls om 0 (fadeProgram visible duration_s 30)).2.1 <;>
        simp [runCalls, hb]
    · simp only [fade_or_toggle, hf, Bool.false_eq_true, if_false]
      cases hb : om (runCalls om 0 (fadeProgram visible duration_s 30)).2.1 <;>
        simp [runCalls, hb]
  · intro ht
    simp [fade_or_toggle, ht]

/-- C8 witness: first request fails, the fallback toggle succeeds — the
trace ends with the single fallback toggle and no error is propagated. -/
theorem claim_C8_witness :
    (fade_or_toggle (fun n => decide (n = 1)) false 0).1 =
      [ObsCall.setEnabled false, ObsCall.setEnabled false] ∧
    (fade_or_toggle (fun n => decide (n = 1)) false 0).2 = true := by
  have h := (claim_C8 (fun n => decide (n = 1)) false 0).1 rfl
  constructor
  · rw [h.1]; rfl
  · rw [h.2]; rfl

/-- C5 counterexample: for a 10×10 avatar with a 32px icon at a right
corner, the code clamps the horizontal offset at the avatar's left edge
(`x = 0`), not at "right edge minus iconSize" (`10 - 32 = -22`) as the
claim's formula states. -/
theorem claim_C5_cex :
    icon_anchor 0 0 10 10 32 IconPosition.topRight 0 = (0, 0) ∧
    (0 : Int) ≠ 0 + (10 - 32) := by
  decide

/-- C5 (amended): the icon anchor equals the claim's corner formulas with
the offsets inside the avatar clamped at zero — horizontally `x + max 0
(w - iconSize)` for right corners, vertically `y + max 0 (h - iconSize) -
i·(iconSize+2)` for bottom corners — and in particular the claim's concrete
example (clamp inactive there) holds: mute icon at `(100, 218)`, deafen
icon at `(100, 184)` for corner bottom-left, rect `(100,100,200,150)`,
icon size `32`. -/
theorem claim_C5 (ax ay aw ah isz i : Int) (pos : IconPosition) :
    (icon_anchor ax ay aw ah isz pos i =
      ((if pos = IconPosition.topLeft ∨ pos = IconPosition.bottomLeft then ax
        else ax + max 0 (aw - isz)),
       (if pos = IconPosition.topLeft ∨ pos = IconPosition.topRight then
          ay + i * (isz + 2)
        else ay + max 0 (ah - isz) - i * (isz + 2)))) ∧
    icon_anchor 100 100 200 150 32 IconPosition.bottomLeft 0 = (100, 218) ∧
    icon_anchor 100 100 200 150 32 IconPosition.bottomLeft 1 = (100, 184) := by
  refine ⟨?_, by decide, by decide⟩
  cases pos <;> simp [icon_anchor] <;> ring

/-! ### Slot-assignment proofs (C3, C4) -/

/-- The keys of an association list, in order (python `dict` keys). -/
def mkeys {α : Type} (m : List (Nat × α)) : List Nat := m.map Prod.fst

/-- The values of a slot map, in order (python `dict` values). -/
def slots (m : SlotMap) : List Int := m.map Prod.snd

/-- The ids of a user list, in order. -/
def ids (users : List UserConfig) : List Nat := users.map UserConfig.discord_id

/-- The running invariant of `assign_slots`: keys are distinct, the `taken`
set is exactly the list of assigned slots, slots are distinct and in range
`1..6`. -/
def StInv (taken : List Int) (out : SlotMap) : Prop :=
  (mkeys out).Nodup ∧ taken = slots out ∧ taken.Nodup ∧
  ∀ s ∈ taken, 1 ≤ s ∧ s ≤ 6

theorem StInv_nil : StInv [] [] := by
  refine ⟨List.nodup_nil, rfl, List.nodup_nil, ?_⟩
  intro s hs
  cases hs

theorem alookup_eq_none_iff {α : Type} :
    ∀ (m : List (Nat × α)) (k : Nat), alookup m k = none ↔ k ∉ mkeys m := by
  intro m k
  induction m with
  | nil => simp [alookup, mkeys]
  | cons p rest ih =>
      simp only [mkeys, List.map_cons, List.mem_cons, not_or] at ih ⊢
      by_cases hp : p.1 = k
      · subst hp
        simp [alookup]
      · simp [alookup, hp, ih, Ne.symm hp]

theorem alookup_isSome_iff {α : Type} (m : List (Nat × α)) (k : Nat) :
    (alookup m k).isSome ↔ k ∈ mkeys m := by
  cases hm : alookup m k with
  | none =>
      simp only [Option.isSome_none, Bool.false_eq_true, false_iff]
      exact (alookup_eq_none_iff m k).mp hm
  | some v =>
      simp only [Option.isSome_some, true_iff]
      by_contra hmem
      rw [← alookup_eq_none_iff m k] at hmem
      rw [hmem] at hm
      cases hm

theorem alookup_mem {α : Type} :
    ∀ (m : List (Nat × α)) (k : Nat) (v : α), alookup m k = some v → (k, v) ∈ m := by
  intro m k v
  induction m with
  | nil => intro h; cases h
  | cons p rest ih =>
      intro h
      by_cases hp : p.1 = k
      · simp only [alookup, hp, if_pos] at h
        have hv : p.2 = v := Option.some.inj (by simpa using h)
        have hkv : (k, v) = p := by rw [← hp, ← hv]
        rw [hkv]
        exact List.mem_cons_self p rest
      · simp only [alookup, hp, if_false] at h
        right
        exact ih (by simpa using h)

theorem mem_slots_of_alookup {m : SlotMap} {k : Nat} {v : Int}
    (h : alookup m k = some v) : v ∈ slots m := by
  have := alookup_mem m k v h
  exact List.mem_map_of_mem Prod.snd this

/-- In a slot map with distinct values, two keys bound to the same value
coincide. -/
theorem nodup_values_inj {α : Type} :
    ∀ (m : List (Nat × α)), (m.map Prod.snd).Nodup →
      ∀ (k1 k2 : Nat) (v : α),
        alookup m k1 = some v → alookup m k2 = some v → k1 = k2 := by
  intro m
  induction m with
  | nil => intro _ k1 k2 v h; cases h
  | cons p rest ih =>
      intro hnd k1 k2 v h1 h2
      simp only [List.map_cons, List.nodup_cons] at hnd
      by_cases hp1 : p.1 = k1
      · by_cases hp2 : p.1 = k2
        · rw [← hp1, hp2]
        · simp only [alookup, hp1, if_pos] at h1
          simp only [alookup, hp2, if_false] at h2
          have hv : p.2 = v := Option.some.inj (by simpa using h1)
          have : v ∈ rest.map Prod.snd :=
            List.mem_map_of_mem Prod.snd (alookup_mem rest k2 v (by simpa using h2))
          rw [hv] at hnd
          exact absurd this hnd.1
      · by_cases hp2 : p.1 = k2
        · simp only [alookup, hp2, if_pos] at h2
          simp only [alookup, hp1, if_false] at h1
          have hv : p.2 = v := Option.some.inj (by simpa using h2)
          have : v ∈ rest.map Prod.snd :=
            List.mem_map_of_mem Prod.snd (alookup_mem rest k1 v (by simpa using h1))
          rw [hv] at hnd
          exact absurd this hnd.1
        · simp only [alookup, hp1, hp2, if_false] at h1 h2
          exact ih hnd.2 k1 k2 v (by simpa using h1) (by simpa using h2)

theorem sadd_not_mem {taken : List Int} {s : Int} (h : s ∉ taken) :
    sadd taken s = taken ++ [s] := by
  simp [sadd, h]

theorem mem_sadd {taken : List Int} {s t : Int} :
    t ∈ sadd taken s → t ∈ taken ∨ t = s := by
  intro h
  by_cases hm : s ∈ taken
  · simp only [sadd, hm, if_pos] at h
    exact Or.inl h
  · rw [sadd_not_mem hm] at h
    simpa using h

theorem mem_sadd_of_mem {taken : List Int} (s : Int) {t : Int} (h : t ∈ taken) :
    t ∈ sadd taken s := by
  by_cases hm : s ∈ taken
  · simpa [sadd, hm] using h
  · rw [sadd_not_mem hm]
    exact List.mem_append_left _ h

theorem mkeys_map_replace {α : Type} (k : Nat) (v : α) :
    ∀ (m : List (Nat × α)),
      mkeys (m.map (fun p => if p.1 = k then (k, v) else p)) = mkeys m := by
  intro m
  induction m with
  | nil => rfl
  | cons p rest ih =>
      by_cases hp : p.1 = k
      · simp only [mkeys, List.map_cons] at ih ⊢
        rw [if_pos hp, ih]
        simp [hp]
      · simp only [mkeys, List.map_cons] at ih ⊢
        rw [if_neg hp, ih]

theorem mkeys_adinsert {α : Type} (m : List (Nat × α)) (k : Nat) (v : α) :
    mkeys (adinsert m k v) = mkeys m ∨ mkeys (adinsert m k v) = mkeys m ++ [k] := by
  cases hm : alookup m k with
  | some w =>
      left
      simp only [adinsert, hm, Option.isSome_some, if_true]
      exact mkeys_map_replace k v m
  | none =>
      right
      simp only [adinsert, hm, Option.isSome_none, Bool.false_eq_true, if_false]
      simp [mkeys]

theorem mem_mkeys_adinsert {α : Type} {m : List (Nat × α)} {k : Nat} {v : α}
    {x : Nat} (h : x ∈ mkeys (adinsert m k v)) : x ∈ mkeys m ∨ x = k := by
  rcases mkeys_adinsert m k v with he | he <;> rw [he] at h
  · exact Or.inl h
  · simpa using h

/-- `firstFree` over the ascending candidate list: the found slot is free, in
range, and every smaller in-range slot is taken. -/
theorem find?_sorted_minimal (taken : List Int) :
    ∀ (cand : List Int), List.Pairwise (· < ·) cand →
      ∀ (s : Int), cand.find? (fun x => !(taken.contains x)) = some s →
      ∀ t ∈ cand, t < s → t ∈ taken := by
  intro cand
  induction cand with
  | nil => intro _ s h; cases h
  | cons c rest ih =>
      intro hsort s h t ht hts
      rw [List.pairwise_cons] at hsort
      by_cases hc : (taken.contains c : Bool) = true
      · have hfind : rest.find? (fun x => !(taken.contains x)) = some s := by
          rw [List.find?_cons_of_neg _ (by simpa using hc)] at h
          exact h
        rcases List.mem_cons.mp ht with h1 | h1
        · rw [h1]
          simpa using hc
        · exact ih hsort.2 s hfind t h1 hts
      · rw [List.find?_cons_of_pos _ (by simpa using hc)] at h
        have hsc : c = s := Option.some.inj h
        rcases List.mem_cons.mp ht with h1 | h1
        · rw [h1, hsc] at hts
          exact absurd hts (lt_irrefl s)
        · have := hsort.1 t h1
          rw [hsc] at this
          exact absurd hts (not_lt.mpr (le_of_lt this))

theorem firstFree_spec {taken : List Int} {s : Int} (h : firstFree taken = some s) :
    s ∉ taken ∧ 1 ≤ s ∧ s ≤ 6 ∧ ∀ t : Int, 1 ≤ t → t < s → t ∈ taken := by
  have hp := List.find?_some h
  have hmem := List.mem_of_find?_eq_some h
  have hfree : s ∉ taken := by simpa using hp
  have hrange : 1 ≤ s ∧ s ≤ 6 := by
    simp only [List.mem_cons, List.not_mem_nil, or_false] at hmem
    rcases hmem with h1 | h1 | h1 | h1 | h1 | h1 <;> rw [h1] <;> constructor <;> decide
  refine ⟨hfree, hrange.1, hrange.2, ?_⟩
  intro t h1 h2
  have hsorted : List.Pairwise (· < ·) ([1, 2, 3, 4, 5, 6] : List Int) := by decide
  have htc : t ∈ ([1, 2, 3, 4, 5, 6] : List Int) := by
    have h6 : t ≤ 6 := le_trans (le_of_lt h2) hrange.2
    simp only [List.mem_cons, List.not_mem_nil, or_false]
    omega
  exact find?_sorted_minimal taken _ hsorted s h t htc h2

theorem firstFree_none {taken : List Int} (h : firstFree taken = none) :
    ∀ t : Int, 1 ≤ t → t ≤ 6 → t ∈ taken := by
  intro t h1 h2
  have hall := List.find?_eq_none.mp h
  have ht : t ∈ ([1, 2, 3, 4, 5, 6] : List Int) := by
    simp only [List.mem_cons, List.not_mem_nil, or_false]
    omega
  simpa using hall t ht

theorem taken_full_length {taken : List Int}
    (hall : ∀ t : Int, 1 ≤ t → t ≤ 6 → t ∈ taken) : 6 ≤ taken.length := by
  have hsub : ([1, 2, 3, 4, 5, 6] : List Int) ⊆ taken := by
    intro t ht
    simp only [List.mem_cons, List.not_mem_nil, or_false] at ht
    have h1 : 1 ≤ t ∧ t ≤ 6 := by
      rcases ht with h1 | h1 | h1 | h1 | h1 | h1 <;> rw [h1] <;> constructor <;> decide
    exact hall t h1.1 h1.2
  have hnd6 : ([1, 2, 3, 4, 5, 6] : List Int).Nodup := by decide
  simpa using (hnd6.subperm hsub).length_le

/-! pass1 lemmas -/

theorem pass1_append :
    ∀ (xs ys : List UserConfig) (taken : List Int) (out : SlotMap),
      pass1 (xs ++ ys) taken out =
        pass1 ys (pass1 xs taken out).1 (pass1 xs taken out).2 := by
  intro xs
  induction xs with
  | nil => intro ys taken out; rfl
  | cons u rest ih =>
      intro ys taken out
      cases hs : u.position_slot with
      | none => simp only [List.cons_append, pass1, hs]; exact ih ys taken out
      | some s =>
          simp only [List.cons_append, pass1, hs]
          by_cases hmem : s ∈ taken
          · simp only [hmem, if_true]
            exact ih ys taken out
          · simp only [hmem, if_false]
            by_cases hr : 1 ≤ s ∧ s ≤ 6
            · simp only [if_pos hr]
              exact ih ys _ _
            · simp only [if_neg hr]
              exact ih ys taken out

theorem pass1_taken_mono :
    ∀ (users : List UserConfig) (taken : List Int) (out : SlotMap) (t : Int),
      t ∈ taken → t ∈ (pass1 users taken out).1 := by
  intro users
  induction users with
  | nil => intro taken out t ht; exact ht
  | cons u rest ih =>
      intro taken out t ht
      cases hs : u.position_slot with
      | none => simp only [pass1, hs]; exact ih taken out t ht
      | some s =>
          simp only [pass1, hs]
          by_cases hmem : s ∈ taken
          · simp only [hmem, if_true]
            exact ih taken out t ht
          · simp only [hmem, if_false]
            by_cases hr : 1 ≤ s ∧ s ≤ 6
            · simp only [if_pos hr]
              exact ih _ _ t (mem_sadd_of_mem s ht)
            · simp only [if_neg hr]
              exact ih taken out t ht

theorem pass1_taken_source :
    ∀ (users : List UserConfig) (taken : List Int) (out : SlotMap) (t : Int),
      t ∈ (pass1 users taken out).1 →
      t ∈ taken ∨ ∃ u ∈ users, u.position_slot = some t := by
  intro users
  induction users with
  | nil => intro taken out t ht; exact Or.inl ht
  | cons u rest ih =>
      intro taken out t ht
      cases hs : u.position_slot with
      | none =>
          simp only [pass1, hs] at ht
          rcases ih taken out t ht with h | ⟨v, hv, hvs⟩
          · exact Or.inl h
          · exact Or.inr ⟨v, List.mem_cons_of_mem u hv, hvs⟩
      | some s =>
          simp only [pass1, hs] at ht
          by_cases hmem : s ∈ taken
          · simp only [hmem, if_true] at ht
            rcases ih taken out t ht with h | ⟨v, hv, hvs⟩
            · exact Or.inl h
            · exact Or.inr ⟨v, List.mem_cons_of_mem u hv, hvs⟩
          · simp only [hmem, if_false] at ht
            by_cases hr : 1 ≤ s ∧ s ≤ 6
            · simp only [if_pos hr] at ht
              rcases ih _ _ t ht with h | ⟨v, hv, hvs⟩
              · rcases mem_sadd h with h2 | h2
                · exact Or.inl h2
                · exact Or.inr ⟨u, List.mem_cons_self u rest, by rw [hs, h2]⟩
              · exact Or.inr ⟨v, List.mem_cons_of_mem u hv, hvs⟩
            · simp only [if_neg hr] at ht
              rcases ih taken out t ht with h | ⟨v, hv, hvs⟩
              · exact Or.inl h
              · exact Or.inr ⟨v, List.mem_cons_of_mem u hv, hvs⟩

theorem pass1_lookup_preserved :
    ∀ (users : List UserConfig) (taken : List Int) (out : SlotMap) (k : Nat),
      (∀ u ∈ users, u.discord_id ≠ k) →
      alookup (pass1 users taken out).2 k = alookup out k := by
  intro users
  induction users with
  | nil => intro taken out k _; rfl
  | cons u rest ih =>
      intro taken out k hne
      have hrest : ∀ v ∈ rest, v.discord_id ≠ k :=
        fun v hv => hne v (List.mem_cons_of_mem u hv)
      have hu : u.discord_id ≠ k := hne u (List.mem_cons_self u rest)
      cases hs : u.position_slot with
      | none => simp only [pass1, hs]; exact ih taken out k hrest
      | some s =>
          simp only [pass1, hs]
          by_cases hmem : s ∈ taken
          · simp only [hmem, if_true]
            exact ih taken out k hrest
          · simp only [hmem, if_false]
            by_cases hr : 1 ≤ s ∧ s ≤ 6
            · simp only [if_pos hr]
              rw [ih _ _ k hrest]
              exact alookup_adinsert_ne out s (Ne.symm hu)
            · simp only [if_neg hr]
              exact ih taken out k hrest

theorem pass1_lookup_source :
    ∀ (users : List UserConfig) (taken : List Int) (out : SlotMap) (k : Nat) (v : Int),
      alookup (pass1 users taken out).2 k = some v →
      alookup out k = some v ∨
        ∃ u ∈ users, u.discord_id = k ∧ u.position_slot = some v ∧ 1 ≤ v ∧ v ≤ 6 := by
  intro users
  induction users with
  | nil => intro taken out k v h; exact Or.inl h
  | cons u rest ih =>
      intro taken out k v h
      cases hs : u.position_slot with
      | none =>
          simp only [pass1, hs] at h
          rcases ih taken out k v h with h1 | ⟨w, hw, hws⟩
          · exact Or.inl h1
          · exact Or.inr ⟨w, List.mem_cons_of_mem u hw, hws⟩
      | some s =>
          simp only [pass1, hs] at h
          by_cases hmem : s ∈ taken
          · simp only [hmem, if_true] at h
            rcases ih taken out k v h with h1 | ⟨w, hw, hws⟩
            · exact Or.inl h1
            · exact Or.inr ⟨w, List.mem_cons_of_mem u hw, hws⟩
          · simp only [hmem, if_false] at h
            by_cases hr : 1 ≤ s ∧ s ≤ 6
            · simp only [if_pos hr] at h
              rcases ih _ _ k v h with h1 | ⟨w, hw, hws⟩
              · by_cases hk : u.discord_id = k
                · rw [← hk, alookup_adinsert_self] at h1
                  have hv : s = v := Option.some.inj h1
                  exact Or.inr ⟨u, List.mem_cons_self u rest,
                    hk, by rw [hs, hv], hv ▸ hr.1, hv ▸ hr.2⟩
                · rw [alookup_adinsert_ne out s (Ne.symm hk)] at h1
                  exact Or.inl h1
              · exact Or.inr ⟨w, List.mem_cons_of_mem u hw, hws⟩
            · simp only [if_neg hr] at h
              rcases ih taken out k v h with h1 | ⟨w, hw, hws⟩
              · exact Or.inl h1
              · exact Or.inr ⟨w, List.mem_cons_of_mem u hw, hws⟩

theorem pass1_keys_subset :
    ∀ (users : List UserConfig) (taken : List Int) (out : SlotMap) (k : Nat),
      k ∈ mkeys (pass1 users taken out).2 → k ∈ mkeys out ∨ k ∈ ids users := by
  intro users
  induction users with
  | nil => intro taken out k h; exact Or.inl h
  | cons u rest ih =>
      intro taken out k h
      have hcons : k ∈ ids rest → k ∈ ids (u :: rest) := by
        intro hx
        simp only [ids, List.map_cons, List.mem_cons]
        exact Or.inr (by simpa [ids] using hx)
      cases hs : u.position_slot with
      | none =>
          simp only [pass1, hs] at h
          rcases ih taken out k h with h1 | h1
          · exact Or.inl h1
          · exact Or.inr (hcons h1)
      | some s =>
          simp only [pass1, hs] at h
          by_cases hmem : s ∈ taken
          · simp only [hmem, if_true] at h
            rcases ih taken out k h with h1 | h1
            · exact Or.inl h1
            · exact Or.inr (hcons h1)
          · simp only [hmem, if_false] at h
            by_cases hr : 1 ≤ s ∧ s ≤ 6
            · simp only [if_pos hr] at h
              rcases ih _ _ k h with h1 | h1
              · rcases mem_mkeys_adinsert h1 with h2 | h2
                · exact Or.inl h2
                · refine Or.inr ?_
                  simp only [ids, List.map_cons, List.mem_cons]
                  exact Or.inl h2
              · exact Or.inr (hcons h1)
            · simp only [if_neg hr] at h
              rcases ih taken out k h with h1 | h1
              · exact Or.inl h1
              · exact Or.inr (hcons h1)

theorem pass1_StInv :
    ∀ (users : List UserConfig) (taken : List Int) (out : SlotMap),
      StInv taken out → (ids users).Nodup →
      (∀ u ∈ users, u.discord_id ∉ mkeys out) →
      StInv (pass1 users taken out).1 (pass1 users taken out).2 := by
  intro users
  induction users with
  | nil => intro taken out hinv _ _; exact hinv
  | cons u rest ih =>
      intro taken out hinv hnd hfresh
      have hndrest : (ids rest).Nodup := by
        simp only [ids, List.map_cons, List.nodup_cons] at hnd
        exact hnd.2
      have hunotin : u.discord_id ∉ ids rest := by
        simp only [ids, List.map_cons, List.nodup_cons] at hnd
        exact hnd.1
      have hfreshrest : ∀ v ∈ rest, v.discord_id ∉ mkeys out :=
        fun v hv => hfresh v (List.mem_cons_of_mem u hv)
      cases hs : u.position_slot with
      | none =>
          simp only [pass1, hs]
          exact ih taken out hinv hndrest hfreshrest
      | some s =>
          simp only [pass1, hs]
          by_cases hmem : s ∈ taken
          · simp only [hmem, if_true]
            exact ih taken out hinv hndrest hfreshrest
          · simp only [hmem, if_false]
            by_cases hr : 1 ≤ s ∧ s ≤ 6
            · simp only [if_pos hr]
              obtain ⟨hk, hts, htd, hrange⟩ := hinv
              have hufresh : u.discord_id ∉ mkeys out :=
                hfresh u (List.mem_cons_self u rest)
              have hnone : alookup out u.discord_id = none :=
                (alookup_eq_none_iff out u.discord_id).mpr hufresh
              rw [sadd_not_mem hmem, adinsert_fresh s hnone]
              have hinv2 : StInv (taken ++ [s]) (out ++ [(u.discord_id, s)]) := by
                refine ⟨?_, ?_, ?_, ?_⟩
                · simp only [mkeys, List.map_append, List.map_cons, List.map_nil]
                  rw [List.nodup_append]
                  refine ⟨hk, List.nodup_singleton _, ?_⟩
                  intro a ha hb
                  simp only [List.mem_singleton] at hb
                  rw [hb] at ha
                  exact hufresh ha
                · rw [hts]
                  simp [slots]
                · rw [List.nodup_append]
                  refine ⟨htd, List.nodup_singleton _, ?_⟩
                  intro a ha hb
                  simp only [List.mem_singleton] at hb
                  rw [hb] at ha
                  exact hmem ha
                · intro t ht
                  rcases List.mem_append.mp ht with h1 | h1
                  · exact hrange t h1
                  · simp only [List.mem_singleton] at h1
                    rw [h1]
                    exact hr
              refine ih _ _ hinv2 hndrest ?_
              intro v hv
              simp only [mkeys, List.map_append, List.map_cons, List.map_nil,
                List.mem_append, List.mem_singleton, not_or]
              refine ⟨hfreshrest v hv, ?_⟩
              intro heq
              exact hunotin (heq ▸ List.mem_map_of_mem UserConfig.discord_id hv)
            · simp only [if_neg hr]
              exact ih taken out hinv hndrest hfreshrest

/-! pass2 lemmas -/

theorem pass2_append :
    ∀ (xs ys : List UserConfig) (taken : List Int) (out : SlotMap),
      pass2St (xs ++ ys) taken out =
        match pass2St xs taken out with
        | .ok p => pass2St ys p.1 p.2
        | .error e => .error e := by
  intro xs
  induction xs with
  | nil => intro ys taken out; rfl
  | cons u rest ih =>
      intro ys taken out
      by_cases hl : (alookup out u.discord_id).isSome
      · simp only [List.cons_append, pass2St, hl, if_true]
        exact ih ys taken out
      · simp only [List.cons_append, pass2St, hl, Bool.false_eq_true, if_false]
        cases hff : firstFree taken with
        | some s => exact ih ys _ _
        | none => rfl

theorem pass2_props :
    ∀ (users : List UserConfig) (taken : List Int) (out : SlotMap)
      (t2 : List Int) (o2 : SlotMap),
      pass2St users taken out = .ok (t2, o2) →
      (∀ k v, alookup out k = some v → alookup o2 k = some v) ∧
      (∀ t, t ∈ taken → t ∈ t2) ∧
      (∀ k, k ∈ mkeys o2 → k ∈ mkeys out ∨ k ∈ ids users) ∧
      (∀ u ∈ users, (alookup o2 u.discord_id).isSome) := by
  intro users
  induction users with
  | nil =>
      intro taken out t2 o2 h
      have h2 : taken = t2 ∧ out = o2 := by
        have := Option.some.inj (congrArg (fun e => e.toOption) h)
        constructor
        · exact congrArg Prod.fst this
        · exact congrArg Prod.snd this
      obtain ⟨ht, ho⟩ := h2
      subst ht; subst ho
      refine ⟨fun k v h => h, fun t h => h, fun k h => Or.inl h, ?_⟩
      intro u hu
      cases hu
  | cons u rest ih =>
      intro taken out t2 o2 h
      have hcons : ∀ k : Nat, k ∈ ids rest → k ∈ ids (u :: rest) := by
        intro k hk
        simp only [ids, List.map_cons, List.mem_cons]
        exact Or.inr (by simpa [ids] using hk)
      by_cases hl : (alookup out u.discord_id).isSome
      · simp only [pass2St, hl, if_true] at h
        obtain ⟨p1, p2, p3, p4⟩ := ih taken out t2 o2 h
        refine ⟨p1, p2, ?_, ?_⟩
        · intro k hk
          rcases p3 k hk with h1 | h1
          · exact Or.inl h1
          · exact Or.inr (hcons k h1)
        · intro v hv
          rcases List.mem_cons.mp hv with h1 | h1
          · obtain ⟨w, hw⟩ := Option.isSome_iff_exists.mp hl
            rw [h1]
            rw [Option.isSome_iff_exists]
            exact ⟨w, p1 _ w hw⟩
          · exact p4 v h1
      · simp only [pass2St, hl, Bool.false_eq_true, if_false] at h
        cases hff : firstFree taken with
        | none => rw [hff] at h; cases h
        | some s =>
            rw [hff] at h
            have hnone : alookup out u.discord_id = none := by
              cases hx : alookup out u.discord_id
              · rfl
              · rw [hx] at hl; simp at hl
            obtain ⟨p1, p2, p3, p4⟩ := ih _ _ t2 o2 h
            refine ⟨?_, ?_, ?_, ?_⟩
            · intro k v hv
              refine p1 k v ?_
              have hk : k ≠ u.discord_id := by
                intro he
                rw [he, hnone] at hv
                cases hv
              rw [alookup_adinsert_ne out s hk]
              exact hv
            · intro t ht
              exact p2 t (mem_sadd_of_mem s ht)
            · intro k hk
              rcases p3 k hk with h1 | h1
              · rcases mem_mkeys_adinsert h1 with h2 | h2
                · exact Or.inl h2
                · refine Or.inr ?_
                  simp only [ids, List.map_cons, List.mem_cons]
                  exact Or.inl h2
              · exact Or.inr (hcons k h1)
            · intro v hv
              rcases List.mem_cons.mp hv with h1 | h1
              · rw [h1, Option.isSome_iff_exists]
                exact ⟨s, p1 _ s (alookup_adinsert_self out u.discord_id s)⟩
              · exact p4 v h1

theorem pass2_StInv :
    ∀ (users : List UserConfig) (taken : List Int) (out : SlotMap)
      (t2 : List Int) (o2 : SlotMap),
      pass2St users taken out = .ok (t2, o2) → StInv taken out → StInv t2 o2 := by
  intro users
  induction users with
  | nil =>
      intro taken out t2 o2 h hinv
      have hpair := Option.some.inj (congrArg (fun e => e.toOption) h)
      have h1 : taken = t2 := congrArg Prod.fst hpair
      have h2 : out = o2 := congrArg Prod.snd hpair
      rw [← h1, ← h2]
      exact hinv
  | cons u rest ih =>
      intro taken out t2 o2 h hinv
      by_cases hl : (alookup out u.discord_id).isSome
      · simp only [pass2St, hl, if_true] at h
        exact ih taken out t2 o2 h hinv
      · simp only [pass2St, hl, Bool.false_eq_true, if_false] at h
        cases hff : firstFree taken with
        | none => rw [hff] at h; cases h
        | some s =>
            rw [hff] at h
            obtain ⟨hfr, h1s, h6s, _⟩ := firstFree_spec hff
            obtain ⟨hk, hts, htd, hrange⟩ := hinv
            have hnone : alookup out u.discord_id = none := by
              cases hx : alookup out u.discord_id
              · rfl
              · rw [hx] at hl; simp at hl
            have hufresh : u.discord_id ∉ mkeys out :=
              (alookup_eq_none_iff out u.discord_id).mp hnone
            refine ih _ _ t2 o2 h ?_
            rw [sadd_not_mem hfr, adinsert_fresh s hnone]
            refine ⟨?_, ?_, ?_, ?_⟩
            · simp only [mkeys, List.map_append, List.map_cons, List.map_nil]
              rw [List.nodup_append]
              refine ⟨hk, List.nodup_singleton _, ?_⟩
              intro a ha hb
              simp only [List.mem_singleton] at hb
              rw [hb] at ha
              exact hufresh ha
            · rw [hts]
              simp [slots]
            · rw [List.nodup_append]
              refine ⟨htd, List.nodup_singleton _, ?_⟩
              intro a ha hb
              simp only [List.mem_singleton] at hb
              rw [hb] at ha
              exact hfr ha
            · intro t ht
              rcases List.mem_append.mp ht with h1 | h1
              · exact hrange t h1
              · simp only [List.mem_singleton] at h1
                rw [h1]
                exact ⟨h1s, h6s⟩

theorem pass2_error_kind :
    ∀ (users : List UserConfig) (taken : List Int) (out : SlotMap),
      (∃ p, pass2St users taken out = .ok p) ∨
      pass2St users taken out = .error .capacityExceeded := by
  intro users
  induction users with
  | nil => intro taken out; exact Or.inl ⟨(taken, out), rfl⟩
  | cons u rest ih =>
      intro taken out
      by_cases hl : (alookup out u.discord_id).isSome
      · simp only [pass2St, hl, if_true]
        exact ih taken out
      · simp only [pass2St, hl, Bool.false_eq_true, if_false]
        cases hff : firstFree taken with
        | some s => exact ih _ _
        | none => exact Or.inr rfl

theorem step_StInv {taken : List Int} {out : SlotMap} {s : Int} {k : Nat}
    (hinv : StInv taken out) (hff : firstFree taken = some s)
    (hnone : alookup out k = none) :
    StInv (sadd taken s) (adinsert out k s) := by
  obtain ⟨hfr, h1s, h6s, _⟩ := firstFree_spec hff
  obtain ⟨hk, hts, htd, hrange⟩ := hinv
  have hufresh : k ∉ mkeys out := (alookup_eq_none_iff out k).mp hnone
  rw [sadd_not_mem hfr, adinsert_fresh s hnone]
  refine ⟨?_, ?_, ?_, ?_⟩
  · simp only [mkeys, List.map_append, List.map_cons, List.map_nil]
    rw [List.nodup_append]
    refine ⟨hk, List.nodup_singleton _, ?_⟩
    intro a ha hb
    simp only [List.mem_singleton] at hb
    rw [hb] at ha
    exact hufresh ha
  · rw [hts]
    simp [slots]
  · rw [List.nodup_append]
    refine ⟨htd, List.nodup_singleton _, ?_⟩
    intro a ha hb
    simp only [List.mem_singleton] at hb
    rw [hb] at ha
    exact hfr ha
  · intro t ht
    rcases List.mem_append.mp ht with h1 | h1
    · exact hrange t h1
    · simp only [List.mem_singleton] at h1
      rw [h1]
      exact ⟨h1s, h6s⟩

theorem filter_isSome_length :
    ∀ (users : List UserConfig) (out : SlotMap),
      (ids users).Nodup → (mkeys out).Nodup →
      (∀ k ∈ mkeys out, k ∈ ids users) →
      (users.filter (fun u => (alookup out u.discord_id).isSome)).length = out.length := by
  intro users out hnd hmk hsub
  have hflnd :
      ((users.filter (fun u => (alookup out u.discord_id).isSome)).map
        UserConfig.discord_id).Nodup := by
    have hsl := List.Sublist.map UserConfig.discord_id
      (List.filter_sublist (l := users)
        (p := fun u => (alookup out u.discord_id).isSome))
    exact List.Nodup.sublist hsl hnd
  have hiff : ∀ k : Nat,
      k ∈ (users.filter (fun u => (alookup out u.discord_id).isSome)).map
        UserConfig.discord_id ↔ k ∈ mkeys out := by
    intro k
    constructor
    · intro hk
      obtain ⟨v, hv, hvk⟩ := List.mem_map.mp hk
      obtain ⟨hvu, hvP⟩ := List.mem_filter.mp hv
      rw [← hvk, ← alookup_isSome_iff]
      exact hvP
    · intro hk
      obtain ⟨v, hv, hvk⟩ := List.mem_map.mp (hsub k hk)
      refine List.mem_map.mpr ⟨v, ?_, hvk⟩
      refine List.mem_filter.mpr ⟨hv, ?_⟩
      rw [hvk, alookup_isSome_iff]
      exact hk
  have hperm := (List.perm_ext_iff_of_nodup hflnd hmk).mpr hiff
  have hlen := hperm.length_eq
  simpa [mkeys] using hlen

theorem pass2_ok :
    ∀ (users : List UserConfig) (taken : List Int) (out : SlotMap),
      StInv taken out → (ids users).Nodup →
      out.length +
        (users.filter (fun u => !(alookup out u.discord_id).isSome)).length ≤ 6 →
      ∃ p, pass2St users taken out = .ok p := by
  intro users
  induction users with
  | nil => intro taken out _ _ _; exact ⟨(taken, out), rfl⟩
  | cons u rest ih =>
      intro taken out hinv hnd hcount
      have hndrest : (ids rest).Nodup := by
        simp only [ids, List.map_cons, List.nodup_cons] at hnd
        exact hnd.2
      have hunotin : u.discord_id ∉ ids rest := by
        simp only [ids, List.map_cons, List.nodup_cons] at hnd
        exact hnd.1
      by_cases hl : (alookup out u.discord_id).isSome
      · have hfc : (u :: rest).filter (fun v => !(alookup out v.discord_id).isSome) =
            rest.filter (fun v => !(alookup out v.discord_id).isSome) :=
          List.filter_cons_of_neg (by simp [hl])
        rw [hfc] at hcount
        obtain ⟨p, hp⟩ := ih taken out hinv hndrest hcount
        refine ⟨p, ?_⟩
        simp only [pass2St, hl, if_true]
        exact hp
      · have hfc : (u :: rest).filter (fun v => !(alookup out v.discord_id).isSome) =
            u :: rest.filter (fun v => !(alookup out v.discord_id).isSome) :=
          List.filter_cons_of_pos (by simp [hl])
        rw [hfc] at hcount
        simp only [List.length_cons] at hcount
        cases hff : firstFree taken with
        | none =>
            exfalso
            have hall := firstFree_none hff
            have h6 : 6 ≤ taken.length := taken_full_length hall
            have hlen : taken.length = out.length := by
              obtain ⟨_, hts, _, _⟩ := hinv
              rw [hts]
              simp [slots]
            omega
        | some s =>
            have hnone : alookup out u.discord_id = none := by
              cases hx : alookup out u.discord_id
              · rfl
              · rw [hx] at hl; simp at hl
            have hinv2 := step_StInv hinv hff hnone
            have hlen2 : (adinsert out u.discord_id s).length = out.length + 1 := by
              rw [adinsert_fresh s hnone]
              simp
            have hfeq : rest.filter
                  (fun v => !(alookup (adinsert out u.discord_id s) v.discord_id).isSome) =
                rest.filter (fun v => !(alookup out v.discord_id).isSome) := by
              refine List.filter_congr ?_
              intro v hv
              have hne : v.discord_id ≠ u.discord_id := by
                intro he
                exact hunotin (he ▸ List.mem_map_of_mem UserConfig.discord_id hv)
              rw [alookup_adinsert_ne out s hne]
            have hcount2 : (adinsert out u.discord_id s).length +
                (rest.filter (fun v =>
                  !(alookup (adinsert out u.discord_id s) v.discord_id).isSome)).length ≤ 6 := by
              rw [hlen2, hfeq]
              omega
            obtain ⟨p, hp⟩ := ih _ _ hinv2 hndrest hcount2
            refine ⟨p, ?_⟩
            simp only [pass2St, hl, Bool.false_eq_true, if_false]
            rw [hff]
            exact hp

/-- C3 counterexample: a single person with no explicit slot is assigned
slot 1 only; the mapping is not a surjection onto `[1,6]` (slot 4 has no
preimage), so "bijection onto [1,6] when at most 6 people" fails as stated. -/
theorem claim_C3_cex :
    assign_slots [⟨1, none⟩] = .ok [(1, 1)] ∧
    (4 : Int) ∉ slots [((1 : Nat), (1 : Int))] := by
  constructor
  · decide
  · decide

/-- C3 (amended): `assign_slots` is deterministic (a pure function of the
input list); with distinct ids and at most 6 people it succeeds and yields a
total, slot-distinct (injective) mapping into `[1,6]` — onto `[1,6]` exactly
when there are 6 people — and with distinct ids and more than 6 people it
fails with `CapacityExceeded`. -/
theorem claim_C3 (users : List UserConfig) :
    (∀ users2, users = users2 → assign_slots users = assign_slots users2) ∧
    ((ids users).Nodup → users.length ≤ 6 →
      ∃ m, assign_slots users = .ok m ∧
        (∀ u ∈ users, ∃ s, alookup m u.discord_id = some s ∧ 1 ≤ s ∧ s ≤ 6) ∧
        (mkeys m).Nodup ∧ (slots m).Nodup ∧
        (users.length = 6 → ∀ t : Int, 1 ≤ t → t ≤ 6 → t ∈ slots m)) ∧
    ((ids users).Nodup → 6 < users.length →
      assign_slots users = .error .capacityExceeded) := by
  refine ⟨fun users2 h => by rw [h], ?_, ?_⟩
  · intro hnd hlen
    have hfresh : ∀ u ∈ users, u.discord_id ∉ mkeys ([] : SlotMap) := by
      intro u hu h
      simp [mkeys] at h
    have hInv1 : StInv (pass1 users [] []).1 (pass1 users [] []).2 :=
      pass1_StInv users [] [] StInv_nil hnd hfresh
    have hkeys1 : ∀ k ∈ mkeys (pass1 users [] []).2, k ∈ ids users := by
      intro k hk
      rcases pass1_keys_subset users [] [] k hk with h1 | h1
      · simp [mkeys] at h1
      · exact h1
    have hsplit := List.length_eq_length_filter_add
      (l := users) (fun u => (alookup (pass1 users [] []).2 u.discord_id).isSome)
    have hflen := filter_isSome_length users (pass1 users [] []).2 hnd hInv1.1 hkeys1
    have hcount : (pass1 users [] []).2.length +
        (users.filter
          (fun u => !(alookup (pass1 users [] []).2 u.discord_id).isSome)).length ≤ 6 := by
      omega
    obtain ⟨⟨t2, o2⟩, hp⟩ := pass2_ok users _ _ hInv1 hnd hcount
    have hInv2 := pass2_StInv users _ _ t2 o2 hp hInv1
    obtain ⟨hmk2, hts2, htd2, hrange2⟩ := hInv2
    obtain ⟨hpres, hmono, hkeys2, htot⟩ := pass2_props users _ _ t2 o2 hp
    have hsnd : (slots o2).Nodup := by rw [← hts2]; exact htd2
    refine ⟨o2, ?_, ?_, hmk2, hsnd, ?_⟩
    · show (pass2St users (pass1 users [] []).1 (pass1 users [] []).2).map Prod.snd =
        Except.ok o2
      rw [hp]
      rfl
    · intro u hu
      obtain ⟨s, hs⟩ := Option.isSome_iff_exists.mp (htot u hu)
      have hr := hrange2 s (by rw [hts2]; exact mem_slots_of_alookup hs)
      exact ⟨s, hs, hr.1, hr.2⟩
    · intro h6 t ht1 ht6
      have hids_sub : ids users ⊆ mkeys o2 := by
        intro k hk
        obtain ⟨u, hu, huk⟩ := List.mem_map.mp hk
        rw [← huk, ← alookup_isSome_iff]
        exact htot u hu
      have hkeys_sub : mkeys o2 ⊆ ids users := by
        intro k hk
        rcases hkeys2 k hk with h1 | h1
        · exact hkeys1 k h1
        · exact h1
      have hperm := (List.perm_ext_iff_of_nodup hmk2 hnd).mpr
        (fun k => ⟨fun hk => hkeys_sub hk, fun hk => hids_sub hk⟩)
      have hlen2 : o2.length = 6 := by
        have h1 := hperm.length_eq
        have h2 : (mkeys o2).length = o2.length := by simp [mkeys]
        have h3 : (ids users).length = users.length := by simp [ids]
        omega
      have hslots_sub : slots o2 ⊆ ([1, 2, 3, 4, 5, 6] : List Int) := by
        intro v hv
        have := hrange2 v (by rw [hts2]; exact hv)
        simp only [List.mem_cons, List.not_mem_nil, or_false]
        omega
      have hsub2 : List.Subperm (slots o2) ([1, 2, 3, 4, 5, 6] : List Int) :=
        hsnd.subperm hslots_sub
      have hslen : (slots o2).length = 6 := by simp [slots, hlen2]
      have hperm2 := hsub2.perm_of_length_le (by simp [hslen])
      rw [hperm2.mem_iff]
      simp only [List.mem_cons, List.not_mem_nil, or_false]
      omega
  · intro hnd hgt
    rcases pass2_error_kind users (pass1 users [] []).1 (pass1 users [] []).2 with
      ⟨⟨t2, o2⟩, hp⟩ | herr
    · exfalso
      have hInv1 : StInv (pass1 users [] []).1 (pass1 users [] []).2 :=
        pass1_StInv users [] [] StInv_nil hnd (fun u hu h => by simp [mkeys] at h)
      have hInv2 := pass2_StInv users _ _ t2 o2 hp hInv1
      obtain ⟨hmk2, hts2, htd2, hrange2⟩ := hInv2
      obtain ⟨_, _, _, htot⟩ := pass2_props users _ _ t2 o2 hp
      have hids_sub : ids users ⊆ mkeys o2 := by
        intro k hk
        obtain ⟨u, hu, huk⟩ := List.mem_map.mp hk
        rw [← huk, ← alookup_isSome_iff]
        exact htot u hu
      have h1 : users.length ≤ o2.length := by
        have := (hnd.subperm hids_sub).length_le
        simpa [ids, mkeys] using this
      have hsnd : (slots o2).Nodup := by rw [← hts2]; exact htd2
      have hslots_sub : slots o2 ⊆ ([1, 2, 3, 4, 5, 6] : List Int) := by
        intro v hv
        have := hrange2 v (by rw [hts2]; exact hv)
        simp only [List.mem_cons, List.not_mem_nil, or_false]
        omega
      have h2 : o2.length ≤ 6 := by
        have := (hsnd.subperm hslots_sub).length_le
        simpa [slots] using this
      omega
    · show (pass2St users (pass1 users [] []).1 (pass1 users [] []).2).map Prod.snd =
        Except.error LayoutErr.capacityExceeded
      rw [herr]
      rfl

/-- C3 witness: six people (one with explicit slot 4) are assigned a total,
injective, onto mapping; seven people with no explicit slots fail with
`CapacityExceeded`. -/
theorem claim_C3_witness :
    (∃ m, assign_slots [⟨1, none⟩, ⟨2, some 4⟩, ⟨3, none⟩, ⟨4, none⟩, ⟨5, none⟩,
        ⟨6, none⟩] = .ok m ∧
      (∀ u ∈ ([⟨1, none⟩, ⟨2, some 4⟩, ⟨3, none⟩, ⟨4, none⟩, ⟨5, none⟩,
          ⟨6, none⟩] : List UserConfig),
        ∃ s, alookup m u.discord_id = some s ∧ 1 ≤ s ∧ s ≤ 6) ∧
      (mkeys m).Nodup ∧ (slots m).Nodup ∧
      (([⟨1, none⟩, ⟨2, some 4⟩, ⟨3, none⟩, ⟨4, none⟩, ⟨5, none⟩,
          ⟨6, none⟩] : List UserConfig).length = 6 →
        ∀ t : Int, 1 ≤ t → t ≤ 6 → t ∈ slots m)) ∧
    assign_slots [⟨1, none⟩, ⟨2, none⟩, ⟨3, none⟩, ⟨4, none⟩, ⟨5, none⟩, ⟨6, none⟩,
      ⟨7, none⟩] = .error .capacityExceeded :=
  ⟨(claim_C3 [⟨1, none⟩, ⟨2, some 4⟩, ⟨3, none⟩, ⟨4, none⟩, ⟨5, none⟩,
      ⟨6, none⟩]).2.1 (by decide) (by decide),
   (claim_C3 [⟨1, none⟩, ⟨2, none⟩, ⟨3, none⟩, ⟨4, none⟩, ⟨5, none⟩, ⟨6, none⟩,
      ⟨7, none⟩]).2.2 (by decide) (by decide)⟩

theorem mem_sadd_self (taken : List Int) (s : Int) : s ∈ sadd taken s := by
  by_cases hm : s ∈ taken
  · simp only [sadd, hm, if_true]
  · rw [sadd_not_mem hm]
    exact List.mem_append_right _ (List.mem_singleton.mpr rfl)

theorem nodup_ids_unique :
    ∀ (users : List UserConfig), (ids users).Nodup →
      ∀ u ∈ users, ∀ w ∈ users, u.discord_id = w.discord_id → u = w := by
  intro users
  induction users with
  | nil => intro _ u hu; cases hu
  | cons v rest ih =>
      intro hnd u hu w hw he
      simp only [ids, List.map_cons, List.nodup_cons] at hnd
      rcases List.mem_cons.mp hu with h1 | h1
      · rcases List.mem_cons.mp hw with h2 | h2
        · rw [h1, h2]
        · exfalso
          refine hnd.1 ?_
          rw [← h1, he]
          exact List.mem_map_of_mem UserConfig.discord_id h2
      · rcases List.mem_cons.mp hw with h2 | h2
        · exfalso
          refine hnd.1 ?_
          rw [← h2, ← he]
          exact List.mem_map_of_mem UserConfig.discord_id h1
        · exact ih hnd.2 u h1 w h2 he

theorem pass1_first_explicit (pre rest1 : List UserConfig) (u1 : UserConfig) (s : Int)
    (h1 : u1.position_slot = some s) (hr : 1 ≤ s ∧ s ≤ 6)
    (hpre : ∀ v ∈ pre, v.position_slot ≠ some s)
    (hne : ∀ v ∈ rest1, v.discord_id ≠ u1.discord_id) :
    alookup (pass1 (pre ++ u1 :: rest1) [] []).2 u1.discord_id = some s ∧
    s ∈ (pass1 (pre ++ u1 :: rest1) [] []).1 := by
  rw [pass1_append]
  have hmem : s ∉ (pass1 pre [] []).1 := by
    intro hm
    rcases pass1_taken_source pre [] [] s hm with h | ⟨v, hv, hvs⟩
    · cases h
    · exact hpre v hv hvs
  have hstep : pass1 (u1 :: rest1) (pass1 pre [] []).1 (pass1 pre [] []).2 =
      pass1 rest1 (sadd (pass1 pre [] []).1 s)
        (adinsert (pass1 pre [] []).2 u1.discord_id s) := by
    simp only [pass1, h1, hmem, if_false, if_pos hr]
  rw [hstep]
  constructor
  · rw [pass1_lookup_preserved rest1 _ _ u1.discord_id hne]
    exact alookup_adinsert_self (pass1 pre [] []).2 u1.discord_id s
  · exact pass1_taken_mono rest1 _ _ s (mem_sadd_self (pass1 pre [] []).1 s)

/-- C4: with distinct ids, when explicit slot 3 is configured for two people
(`u1` before `u2`, no one before `u1` asking for 3), the first keeps slot 3
in the final mapping; the second gets no explicit binding in pass 1 and is
auto-assigned the lowest remaining free slot: its slot `s` lies in `[1,6]`,
differs from 3, and every slot below `s` is occupied in the final mapping.
In general a person with an out-of-range explicit slot gets no pass-1
binding and falls through to auto-assignment. -/
theorem claim_C4 (pre mid post : List UserConfig) (u1 u2 : UserConfig) (m : SlotMap)
    (hnd : (ids (pre ++ u1 :: mid ++ u2 :: post)).Nodup)
    (h1 : u1.position_slot = some 3)
    (h2 : u2.position_slot = some 3)
    (hpre : ∀ v ∈ pre, v.position_slot ≠ some 3)
    (hok : assign_slots (pre ++ u1 :: mid ++ u2 :: post) = .ok m) :
    alookup m u1.discord_id = some 3 ∧
    alookup (pass1 (pre ++ u1 :: mid ++ u2 :: post) [] []).2 u2.discord_id = none ∧
    (∃ s, alookup m u2.discord_id = some s ∧ 1 ≤ s ∧ s ≤ 6 ∧ s ≠ 3 ∧
      ∀ t : Int, 1 ≤ t → t < s → t ∈ slots m) ∧
    (∀ (users : List UserConfig) (u : UserConfig) (s : Int),
      (ids users).Nodup → u ∈ users → u.position_slot = some s →
      ¬(1 ≤ s ∧ s ≤ 6) → alookup (pass1 users [] []).2 u.discord_id = none) := by
  have hD : ∀ (users : List UserConfig) (u : UserConfig) (s : Int),
      (ids users).Nodup → u ∈ users → u.position_slot = some s →
      ¬(1 ≤ s ∧ s ≤ 6) → alookup (pass1 users [] []).2 u.discord_id = none := by
    intro users u s hndu hu hus hrange
    cases hl : alookup (pass1 users [] []).2 u.discord_id with
    | none => rfl
    | some v =>
        exfalso
        rcases pass1_lookup_source users [] [] u.discord_id v hl with
          h | ⟨w, hw, hwid, hws, hr1, hr6⟩
        · cases h
        · have hwu : w = u := nodup_ids_unique users hndu w hw u hu hwid
          rw [hwu, hus] at hws
          have hsv : s = v := Option.some.inj hws
          rw [← hsv] at hr1 hr6
          exact hrange ⟨hr1, hr6⟩
  have hu1mem : u1 ∈ pre ++ u1 :: mid ++ u2 :: post := by simp
  have hu2mem : u2 ∈ pre ++ u1 :: mid ++ u2 :: post := by simp
  have hpw : List.Pairwise (fun a b => a ≠ b)
      (ids pre ++ u1.discord_id :: (ids mid ++ u2.discord_id :: ids post)) := by
    have : ids (pre ++ u1 :: mid ++ u2 :: post) =
        ids pre ++ u1.discord_id :: (ids mid ++ u2.discord_id :: ids post) := by
      simp [ids, List.map_append]
    rw [← this]
    exact hnd
  rw [List.pairwise_append] at hpw
  obtain ⟨hpw1, hpwr, hcross⟩ := hpw
  rw [List.pairwise_cons] at hpwr
  obtain ⟨hu1ne, hpwr2⟩ := hpwr
  have hne12 : u1.discord_id ≠ u2.discord_id :=
    hu1ne u2.discord_id (List.mem_append_right _ (List.mem_cons_self _ _))
  have hne_rest1 : ∀ v ∈ mid ++ u2 :: post, v.discord_id ≠ u1.discord_id := by
    intro v hv
    refine Ne.symm (hu1ne v.discord_id ?_)
    rcases List.mem_append.mp hv with h | h
    · exact List.mem_append_left _ (List.mem_map_of_mem _ h)
    · rcases List.mem_cons.mp h with h | h
      · rw [h]
        exact List.mem_append_right _ (List.mem_cons_self _ _)
      · exact List.mem_append_right _
          (List.mem_cons_of_mem _ (List.mem_map_of_mem _ h))
  have hxs_not : u2.discord_id ∉ ids (pre ++ u1 :: mid) := by
    intro hmem
    have hm2 : u2.discord_id ∈ ids pre ++ u1.discord_id :: ids mid := by
      simpa [ids, List.map_append] using hmem
    rcases List.mem_append.mp hm2 with h | h
    · exact hcross u2.discord_id h u2.discord_id
        (List.mem_cons_of_mem _ (List.mem_append_right _ (List.mem_cons_self _ _))) rfl
    · rcases List.mem_cons.mp h with h | h
      · exact hne12 h.symm
      · rw [List.pairwise_append] at hpwr2
        exact hpwr2.2.2 u2.discord_id h u2.discord_id (List.mem_cons_self _ _) rfl
  have hok2 : ∃ t2, pass2St (pre ++ u1 :: mid ++ u2 :: post)
      (pass1 (pre ++ u1 :: mid ++ u2 :: post) [] []).1
      (pass1 (pre ++ u1 :: mid ++ u2 :: post) [] []).2 = .ok (t2, m) := by
    have ha : assign_slots (pre ++ u1 :: mid ++ u2 :: post) =
        (pass2St (pre ++ u1 :: mid ++ u2 :: post)
          (pass1 (pre ++ u1 :: mid ++ u2 :: post) [] []).1
          (pass1 (pre ++ u1 :: mid ++ u2 :: post) [] []).2).map Prod.snd := rfl
    rw [ha] at hok
    cases hps : pass2St (pre ++ u1 :: mid ++ u2 :: post)
        (pass1 (pre ++ u1 :: mid ++ u2 :: post) [] []).1
        (pass1 (pre ++ u1 :: mid ++ u2 :: post) [] []).2 with
    | ok p =>
        rw [hps] at hok
        have hpm : p.2 = m := by
          simp only [Except.map] at hok
          exact Except.ok.inj hok
        refine ⟨p.1, ?_⟩
        rw [← hpm]
    | error e =>
        rw [hps] at hok
        simp only [Except.map] at hok
        cases hok
  obtain ⟨t2, hp2⟩ := hok2
  set T := (pass1 (pre ++ u1 :: mid ++ u2 :: post) [] []).1 with hT
  set O := (pass1 (pre ++ u1 :: mid ++ u2 :: post) [] []).2 with hO
  have hInv1 : StInv T O :=
    pass1_StInv (pre ++ u1 :: mid ++ u2 :: post) [] [] StInv_nil hnd
      (fun u hu h => by simp [mkeys] at h)
  have hA1 := pass1_first_explicit pre (mid ++ u2 :: post) u1 3 h1 (by decide)
    hpre hne_rest1
  have hlform : pre ++ u1 :: (mid ++ u2 :: post) = pre ++ u1 :: mid ++ u2 :: post := by
    simp
  rw [hlform] at hA1
  rw [← hO] at hA1
  have hA13 : 3 ∈ T := by rw [hT]; exact hA1.2
  have hp2full := hp2
  obtain ⟨hpres, hmono, hkeys2, htot⟩ :=
    pass2_props (pre ++ u1 :: mid ++ u2 :: post) T O t2 m hp2full
  have hA : alookup m u1.discord_id = some 3 := hpres _ 3 hA1.1
  have hB : alookup O u2.discord_id = none := by
    cases hl : alookup O u2.discord_id with
    | none => rfl
    | some v =>
        exfalso
        rcases pass1_lookup_source (pre ++ u1 :: mid ++ u2 :: post) [] []
            u2.discord_id v (by rw [hO] at hl; exact hl) with
          h | ⟨w, hw, hwid, hws, _, _⟩
        · cases h
        · have hwu : w = u2 :=
            nodup_ids_unique (pre ++ u1 :: mid ++ u2 :: post) hnd w hw u2 hu2mem hwid
          rw [hwu, h2] at hws
          have h3v : (3 : Int) = v := Option.some.inj hws
          have hvnd : (O.map Prod.snd).Nodup := by
            have := hInv1.2.1
            rw [this] at hInv1
            exact hInv1.2.2.1
          have hinj := nodup_values_inj O hvnd u1.discord_id u2.discord_id 3
            hA1.1 (by rw [← h3v] at hl; exact hl)
          exact hne12 hinj
  refine ⟨hA, hB, ?_, hD⟩

  have hassoc : pre ++ u1 :: mid ++ u2 :: post = (pre ++ u1 :: mid) ++ u2 :: post := by
    simp
  rw [hassoc, pass2_append] at hp2
  cases hxs : pass2St (pre ++ u1 :: mid) T O with
  | error e =>
      rw [hxs] at hp2
      simp at hp2
  | ok pa =>
      rw [hxs] at hp2
      obtain ⟨hpres_xs, hmono_xs, hkeys_xs, _⟩ :=
        pass2_props (pre ++ u1 :: mid) T O pa.1 pa.2 hxs
      have hlook_oa : alookup pa.2 u2.discord_id = none := by
        rw [alookup_eq_none_iff]
        intro hk
        rcases hkeys_xs u2.discord_id hk with h | h
        · rw [alookup_eq_none_iff] at hB
          exact hB h
        · exact hxs_not h
      simp only [pass2St, hlook_oa, Option.isSome_none, Bool.false_eq_true,
        if_false] at hp2
      cases hff : firstFree pa.1 with
      | none =>
          rw [hff] at hp2
          simp at hp2
      | some s =>
          rw [hff] at hp2
          obtain ⟨hsfree, hs1, hs6, hmin⟩ := firstFree_spec hff
          obtain ⟨hpres_post, hmono_post, _, _⟩ := pass2_props post _ _ t2 m hp2
          have hbind : alookup m u2.discord_id = some s :=
            hpres_post _ s (alookup_adinsert_self pa.2 u2.discord_id s)
          have h3pa : (3 : Int) ∈ pa.1 := hmono_xs 3 hA13
          have hs3 : s ≠ 3 := by
            intro he
            rw [he] at hsfree
            exact hsfree h3pa
          have hInvF := pass2_StInv (pre ++ u1 :: mid ++ u2 :: post) T O t2 m
            hp2full hInv1
          have htsF : t2 = slots m := hInvF.2.1
          refine ⟨s, hbind, hs1, hs6, hs3, ?_⟩
          intro t ht1 hts
          have h1t : t ∈ pa.1 := hmin t ht1 hts
          have h2t : t ∈ sadd pa.1 s := mem_sadd_of_mem s h1t
          have h3t : t ∈ t2 := hmono_post t h2t
          rw [← htsF]
          exact h3t

/-- C4 witness: users `1` and `2` both ask for slot 3; the final mapping is
`{1 ↦ 3, 2 ↦ 1}` — the first keeps 3, the second got no pass-1 binding and
was auto-assigned the lowest remaining slot. -/
theorem claim_C4_witness :
    alookup [((1 : Nat), (3 : Int)), (2, 1)] 1 = some 3 ∧
    alookup (pass1 [(⟨1, some 3⟩ : UserConfig), ⟨2, some 3⟩] [] []).2 2 = none ∧
    (∃ s, alookup [((1 : Nat), (3 : Int)), (2, 1)] 2 = some s ∧ 1 ≤ s ∧ s ≤ 6 ∧
      s ≠ 3 ∧ ∀ t : Int, 1 ≤ t → t < s → t ∈ slots [(1, 3), (2, 1)]) ∧
    (∀ (users : List UserConfig) (u : UserConfig) (s : Int),
      (ids users).Nodup → u ∈ users → u.position_slot = some s →
      ¬(1 ≤ s ∧ s ≤ 6) → alookup (pass1 users [] []).2 u.discord_id = none) :=
  claim_C4 [] [] [] ⟨1, some 3⟩ ⟨2, some 3⟩ [(1, 3), (2, 1)]
    (by decide) rfl rfl (by decide) (by decide)
